import Mathlib

set_option maxHeartbeats 1000000
set_option maxRecDepth 8000

namespace Spec2Proof

/-!
Verification of the live-preview / apply-pipeline core of the repository:
the resolver/inliner (`srcDoc` in `LivePreview.tsx`), the version history
store (`App.tsx`), the file-tree projector (`buildFileTree` in the
CodeDisplay component), the AI typing animation, the manual-save path and
the generation post-processing (`geminiService.ts`).  Strings are embedded
as `List Char`.
-/

/-- Character sequences: file contents and paths (`string` in the source). -/
abbrev Str := List Char

/-- A virtual file: `{ path, content }` record (`File` in geminiService.ts). -/
structure VFile where
  path : Str
  content : Str
deriving DecidableEq, Repr

/-! ### Resolver/inliner (`srcDoc` in LivePreview.tsx, lines 38-142)

The two JS regexes

  `/<link.+?href="([^"]+\.css)"[^>]*>/g`
  `/<script.+?src="([^"]+)"[^>]*><\/script>/g`

are embedded by an executable matcher that follows the backtracking
semantics of the JS engine: the lazy `.+?` tries the shortest extension
first (and cannot cross a newline, since `.` does not match line
terminators without the `s` flag); `[^"]+` and `[^>]*` are runs up to the
next delimiter, which cannot backtrack further because the following
literal is exactly that delimiter. -/

/-- literal `href="` -/
def hrefLit : Str := "href=\"".toList

/-- literal `src="` -/
def srcLit : Str := "src=\"".toList

/-- literal `<link` -/
def linkLit : Str := "<link".toList

/-- literal `<script` -/
def scriptLit : Str := "<script".toList

/-- literal `</script>` -/
def endScriptLit : Str := "</script>".toList

/-- literal `</body>` -/
def endBodyLit : Str := "</body>".toList

/-- literal `.css` -/
def cssExt : Str := ".css".toList

/-- Match `href="([^"]+\.css)"[^>]*>` at the start of `s`.  The capture is
the maximal run of non-quote characters after `href="`; the run must be
nonempty before its mandatory `.css` suffix (so at least 5 characters) and
be followed by the closing quote; `[^>]*>` then consumes up to and
including the next `>`.  Returns consumed length and the capture. -/
def hrefTail (s : Str) : Option (Nat × Str) :=
  if hrefLit.isPrefixOf s then
    let s1 := s.drop 6
    let run := s1.takeWhile (fun c => c ≠ '"')
    let s2 := s1.dropWhile (fun c => c ≠ '"')
    if cssExt.isSuffixOf run && decide (5 ≤ run.length) then
      match s2 with
      | '"' :: s3 =>
        let nt := s3.takeWhile (fun c => c ≠ '>')
        let s4 := s3.dropWhile (fun c => c ≠ '>')
        match s4 with
        | '>' :: _ => some (6 + run.length + 1 + nt.length + 1, run)
        | _ => none
      | _ => none
    else none
  else none

/-- The lazy part of `<link.+?href="..."`: at each position first try the
`href` tail (shortest extension wins for a lazy quantifier), otherwise let
`.+?` consume one more character, which fails on a newline. -/
def linkSeek : Str → Option (Nat × Str)
  | [] => none
  | c :: s' =>
    match hrefTail (c :: s') with
    | some r => some r
    | none => if c = '\n' then none else (linkSeek s').map (fun r => (r.1 + 1, r.2))

/-- Match `/<link.+?href="([^"]+\.css)"[^>]*>/` at the start of `s`:
literal `<link`, one non-newline character for the mandatory part of
`.+?`, then the lazy search.  Returns total matched length and capture. -/
def linkMatchAt (s : Str) : Option (Nat × Str) :=
  if linkLit.isPrefixOf s then
    match s.drop 5 with
    | [] => none
    | c :: s6 =>
      if c = '\n' then none
      else (linkSeek s6).map (fun r => (6 + r.1, r.2))
  else none

/-- Match `src="([^"]+)"[^>]*></script>` at the start of `s` (capture has
no mandatory suffix, but the whole tag must close with `</script>`). -/
def srcTail (s : Str) : Option (Nat × Str) :=
  if srcLit.isPrefixOf s then
    let s1 := s.drop 5
    let run := s1.takeWhile (fun c => c ≠ '"')
    let s2 := s1.dropWhile (fun c => c ≠ '"')
    if run.isEmpty then none
    else
      match s2 with
      | '"' :: s3 =>
        let nt := s3.takeWhile (fun c => c ≠ '>')
        let s4 := s3.dropWhile (fun c => c ≠ '>')
        match s4 with
        | '>' :: s5 =>
          if endScriptLit.isPrefixOf s5 then
            some (5 + run.length + 1 + nt.length + 1 + 9, run)
          else none
        | _ => none
      | _ => none
  else none

/-- Lazy part of `<script.+?src="..."></script>`. -/
def scriptSeek : Str → Option (Nat × Str)
  | [] => none
  | c :: s' =>
    match srcTail (c :: s') with
    | some r => some r
    | none => if c = '\n' then none else (scriptSeek s').map (fun r => (r.1 + 1, r.2))

/-- Match `/<script.+?src="([^"]+)"[^>]*><\/script>/` at the start of `s`. -/
def scriptMatchAt (s : Str) : Option (Nat × Str) :=
  if scriptLit.isPrefixOf s then
    match s.drop 7 with
    | [] => none
    | c :: s8 =>
      if c = '\n' then none
      else (scriptSeek s8).map (fun r => (8 + r.1, r.2))
  else none

/-- One pass of JS `String.prototype.replace` with a global regex: scan
left to right; at a match of length `n` emit `r capture matchedText` and
resume after the match, otherwise emit the character and advance one
position.  `fuel ≥ s.length` makes the recursion structural; every
produced match has `n ≥ 1` so the guard's else-branch is never taken by
the matchers used here. -/
def gRep (m : Str → Option (Nat × Str)) (r : Str → Str → Str) : Nat → Str → Str
  | 0, s => s
  | _ + 1, [] => []
  | fuel + 1, c :: s' =>
    match m (c :: s') with
    | some (n, cap) =>
      if 1 ≤ n then r cap ((c :: s').take n) ++ gRep m r fuel ((c :: s').drop n)
      else c :: gRep m r fuel s'
    | none => c :: gRep m r fuel s'

/-- `s.replace(regex-with-g, replacer)`. -/
def gReplace (m : Str → Option (Nat × Str)) (r : Str → Str → Str) (s : Str) : Str :=
  gRep m r s.length s

/-- `files.find(f => f.path === p)`. -/
def findFile (files : List VFile) (p : Str) : Option VFile :=
  files.find? (fun f => f.path == p)

/-- Replacer for the stylesheet regex (LivePreview.tsx lines 82-88):
inline the css file's content in a `<style>` block when the captured path
exists in the set, otherwise keep the matched tag text. -/
def linkRepl (files : List VFile) (cap matched : Str) : Str :=
  match findFile files cap with
  | some cssFile => "<style>\n".toList ++ cssFile.content ++ "\n</style>".toList
  | none => matched

/-- Replacer for the script regex (LivePreview.tsx lines 91-97). -/
def scriptRepl (files : List VFile) (cap matched : Str) : Str :=
  match findFile files cap with
  | some jsFile => "<script>\n".toList ++ jsFile.content ++ "\n</script>".toList
  | none => matched

/-- The fixed navigation-interception script injected by the resolver
(LivePreview.tsx lines 100-132; braces and apostrophes written as
character escapes). -/
def navScript : Str := "\n            <script>\n                document.addEventListener(\x27click\x27, function(e) \x7b\n                    let target = e.target;\n                    while (target && target.tagName !== \x27A\x27) \x7b\n                        target = target.parentElement;\n                    \x7d\n\n                    if (target && target.hasAttribute(\x27href\x27)) \x7b\n                        const href = target.getAttribute(\x27href\x27);\n                        // Prevent navigation for empty, hash, or javascript links\n                        if (!href || href.trim() === \x27#\x27 || href.trim().toLowerCase().startsWith(\x27javascript:\x27)) \x7b\n                             e.preventDefault();\n                             return;\n                        \x7d\n\n                        const url = new URL(href, window.location.origin);\n                        \n                        // Handle internal navigation\n                        if (url.origin === window.location.origin) \x7b\n                            e.preventDefault();\n                            const path = url.pathname.startsWith(\x27/\x27) ? url.pathname.substring(1) : url.pathname;\n                            window.parent.postMessage(\x7b type: \x27navigate\x27, path: path \x7d, \x27*\x27);\n                        \x7d\n                        // Force external links to open in a new tab for better UX\n                        else if (url.origin !== window.location.origin) \x7b\n                            e.preventDefault();\n                            window.open(url, \x27_blank\x27);\n                        \x7d\n                    \x7d\n                \x7d, true); // Use capture phase to catch event early\n            </script>\n        ".toList

/-- Replace the first occurrence of `pat` (JS `String.replace` with a
string pattern; the replacement here contains no `$` patterns). -/
def replaceFirstOcc (pat rep : Str) : Str → Str
  | [] => []
  | c :: s' =>
    if pat.isPrefixOf (c :: s') then rep ++ (c :: s').drop pat.length
    else c :: replaceFirstOcc pat rep s'

/-- `s.includes(pat)` as a Boolean scan. -/
def occursIn (pat : Str) : Str → Bool
  | [] => pat.isEmpty
  | c :: s' => pat.isPrefixOf (c :: s') || occursIn pat s'

/-- Injection of the navigation script before the closing body tag, or
appended when no `</body>` is present (LivePreview.tsx lines 134-139). -/
def navInject (s : Str) : Str :=
  if occursIn endBodyLit s then replaceFirstOcc endBodyLit (navScript ++ endBodyLit) s
  else s ++ navScript

/-- The diagnostic "Page Not Found" document, part before the interpolated
`activePath` (LivePreview.tsx lines 45-72). -/
def notFoundPre : Str := "\n                <html>\n                    <head>\n                        <style>\n                            :root \x7b\n                                --bg-color: #f8f9fa;\n                                --text-color: #343a40;\n                                --container-bg: #ffffff;\n                                --code-bg: #e9ecef;\n                            \x7d\n                            @media (prefers-color-scheme: dark) \x7b\n                                :root \x7b\n                                    --bg-color: #18181b;\n                                    --text-color: #e4e4e7;\n                                    --container-bg: #27272a;\n                                    --code-bg: #3f3f46;\n                                \x7d\n                            \x7d\n                            body \x7b font-family: -apple-system, BlinkMacSystemFont, \x27Segoe UI\x27, Roboto, Helvetica, Arial, sans-serif; background-color: var(--bg-color); color: var(--text-color); display: flex; align-items: center; justify-content: center; height: 100vh; margin: 0; \x7d\n                            .container \x7b text-align: center; padding: 2rem; background-color: var(--container-bg); border-radius: 8px; box-shadow: 0 4px 6px rgba(0,0,0,0.1); \x7d\n                            h1 \x7b font-size: 1.5rem; color: #d9480f; \x7d\n                            code \x7b background-color: var(--code-bg); padding: 0.2em 0.4em; margin: 0; font-size: 85%; border-radius: 3px; \x7d\n                        </style>\n                    </head>\n                    <body>\n                        <div class=\"container\">\n                            <h1>Page Not Found</h1>\n                            <p>Could not find the file <code>".toList

/-- The diagnostic "Page Not Found" document, part after the interpolated
`activePath` (LivePreview.tsx lines 72-76). -/
def notFoundPost : Str := "</code> in your project.</p>\n                        </div>\n                    </body>\n                </html>\n            ".toList

/-- The diagnostic document for a missing entry path. -/
def notFoundPage (activePath : Str) : Str :=
  notFoundPre ++ activePath ++ notFoundPost

/-- The resolver: `srcDoc` from LivePreview.tsx (lines 38-142).  Empty file
set yields the empty document; a missing entry yields the diagnostic page;
otherwise stylesheet links and script tags are inlined by the two global
regex passes and the navigation script is injected. -/
def srcDoc (files : List VFile) (activePath : Str) : Str :=
  if files.isEmpty then []
  else
    match findFile files activePath with
    | none => notFoundPage activePath
    | some htmlFile =>
      navInject (gReplace scriptMatchAt (scriptRepl files)
        (gReplace linkMatchAt (linkRepl files) htmlFile.content))

/-- The captures found by a global scan of `s`: the same traversal as
`gRep`, collecting the capture groups of the matches the scan finds. -/
def capsAt (m : Str → Option (Nat × Str)) : Nat → Str → List Str
  | 0, _ => []
  | _ + 1, [] => []
  | fuel + 1, c :: s' =>
    match m (c :: s') with
    | some (n, cap) => if 1 ≤ n then cap :: capsAt m fuel ((c :: s').drop n) else capsAt m fuel s'
    | none => capsAt m fuel s'

/-- Captures of all matches of the scan over `s`. -/
def capsOf (m : Str → Option (Nat × Str)) (s : Str) : List Str := capsAt m s.length s

/-- `<link href="p">`: the canonical stylesheet reference tag. -/
def linkTag (p : Str) : Str := "<link href=\"".toList ++ p ++ "\">".toList

/-- `<script src="p"></script>`: the canonical script reference tag. -/
def scriptTag (p : Str) : Str := "<script src=\"".toList ++ p ++ "\"></script>".toList

/-- The inline replacement emitted for a resolved stylesheet. -/
def styleBlock (css : Str) : Str := "<style>\n".toList ++ css ++ "\n</style>".toList

/-- The inline replacement emitted for a resolved script. -/
def scriptBlock (js : Str) : Str := "<script>\n".toList ++ js ++ "\n</script>".toList

/-! ### Version history store (`codeHistory` in App.tsx) -/

/-- `{ files, prompt, timestamp }` (App.tsx lines 32-36). -/
structure HistoryEntry where
  files : List VFile
  prompt : Str
  timestamp : Int
deriving DecidableEq, Repr

/-- `codeHistory`: `{ history, currentIndex }` (App.tsx lines 42-45).  The
spec calls the list `entries`; the source field is named `history`. -/
structure HistoryLog where
  history : List HistoryEntry
  currentIndex : Int
deriving DecidableEq, Repr

/-- JS `arr.slice(0, k)`, including the negative-`k` clamping. -/
def jsSlice0 (k : Int) (l : List α) : List α :=
  if k < 0 then l.take ((l.length : Int) + k).toNat else l.take k.toNat

/-- A new edit (`handleFilesChange`, `handleAnimationComplete`,
`handleRestoreVersion` in App.tsx all share this shape): truncate the
history to `currentIndex + 1` with `slice`, push the new entry, and point
`currentIndex` at the new last element. -/
def appendEdit (log : HistoryLog) (e : HistoryEntry) : HistoryLog :=
  let newHistory := jsSlice0 (log.currentIndex + 1) log.history ++ [e]
  { history := newHistory, currentIndex := (newHistory.length : Int) - 1 }

/-- The log before any entry exists (`{ history: [], currentIndex: -1 }`). -/
def emptyLog : HistoryLog := { history := [], currentIndex := -1 }

/-- `handleUndo` guarded by `canUndo = currentIndex > 0` (App.tsx lines
173 and 476-478); only `currentIndex` moves. -/
def undo (log : HistoryLog) : HistoryLog :=
  if 0 < log.currentIndex then { log with currentIndex := log.currentIndex - 1 } else log

/-- `handleRedo` guarded by `canRedo = currentIndex < history.length - 1`
(App.tsx lines 174 and 480-482). -/
def redo (log : HistoryLog) : HistoryLog :=
  if log.currentIndex < (log.history.length : Int) - 1 then
    { log with currentIndex := log.currentIndex + 1 }
  else log

/-- `handleRestoreVersion` (App.tsx lines 448-467): a missing index is a
no-op; otherwise a fresh entry carrying version `i`'s files is appended
like any other edit (the synthesized prompt text is a parameter here; the
source renders the restored version's timestamp into it). -/
def restoreVersion (log : HistoryLog) (i : Nat) (prompt : Str) (ts : Int) : HistoryLog :=
  match log.history.get? i with
  | none => log
  | some v => appendEdit log { files := v.files, prompt := prompt, timestamp := ts }

/-- The invariant claimed for the store: a non-empty history keeps
`currentIndex` in range. -/
def logInv (log : HistoryLog) : Prop :=
  log.history ≠ [] → 0 ≤ log.currentIndex ∧ log.currentIndex < (log.history.length : Int)

/-! ### Generation post-processing (geminiService.ts lines 313-322) -/

/-- The parsed JSON response of the generation call: `plan` is `none` when
the field is absent (and falsy when empty); `files` is `none` when absent
or not an array. -/
structure ParsedResponse where
  plan : Option Str
  files : Option (List VFile)

/-- `{ path: 'assets/.gitkeep', content: '' }`. -/
def gitkeepFile : VFile := ⟨"assets/.gitkeep".toList, []⟩

/-- `isEditing = !!baseFiles && baseFiles.length > 0` (line 232). -/
def isEditingOf (baseFiles : Option (List VFile)) : Bool :=
  match baseFiles with
  | some bs => decide (0 < bs.length)
  | none => false

/-- The validation and assets-marker logic after `JSON.parse` in
`generateWebApp` (geminiService.ts lines 313-322): a response with truthy
`plan` and a `files` array is returned, with `assets/.gitkeep` pushed for
non-editing calls whose files lack an `assets/`-prefixed path; any other
shape throws "Invalid JSON structure received from AI.". -/
def finalizeGeneration (resp : ParsedResponse) (baseFiles : Option (List VFile)) :
    Except Str (Str × List VFile) :=
  match resp.plan, resp.files with
  | some plan, some fs =>
    if plan.isEmpty then Except.error "Invalid JSON structure received from AI.".toList
    else if !isEditingOf baseFiles
        && !(fs.any (fun f => "assets/".toList.isPrefixOf f.path)) then
      Except.ok (plan, fs ++ [gitkeepFile])
    else Except.ok (plan, fs)
  | _, _ => Except.error "Invalid JSON structure received from AI.".toList

/-! ### Manual save and persistence failure
(`handleManualSave`, CodeDisplay lines 187-197; `handleFilesChange` and
`updateProjectInDb`, App.tsx lines 293-306 and 429-446) -/

inductive SaveStatus
  | saved
  | unsaved
  | saving
deriving DecidableEq, Repr

structure SaveState where
  saveStatus : SaveStatus
  errorNotice : Option Str
  log : HistoryLog
deriving DecidableEq, Repr

/-- One manual save: no-op during an AI apply; otherwise the status goes
to `saving`, the files change appends a history entry and issues the
persistence write — a failed write (`persistOk = false`) sets the error
notice — and the deferred `setTimeout(() => setSaveStatus('saved'), 500)`
then sets the status to `saved` unconditionally. -/
def manualSave (aiEditing persistOk : Bool) (newFiles : List VFile) (ts : Int)
    (st : SaveState) : SaveState :=
  if aiEditing then st
  else
    let st1 := { st with saveStatus := SaveStatus.saving }
    let st2 := { st1 with
      log := appendEdit st1.log { files := newFiles, prompt := "Manual code edit".toList, timestamp := ts },
      errorNotice := if persistOk then st1.errorNotice
        else some "Failed to save changes. Please check your connection.".toList }
    { st2 with saveStatus := SaveStatus.saved }

/-! ### AI typing animation (`typeContent`, CodeDisplay lines 200-221) -/

/-- `Math.max(1, Math.floor(to.length / 200))` (line 205). -/
def charsPerFrame (len : Nat) : Nat := max 1 (len / 200)

/-- One `type()` animation-frame callback (lines 206-218): while the
current content is shorter than the target, reveal `charsPerFrame` more
characters (`substring` clamps at the end). -/
def typeStep (tgt cur : Str) : Str :=
  if cur.length < tgt.length then tgt.take (cur.length + charsPerFrame tgt.length) else cur

/-- Content revealed after `k` animation frames, starting from "". -/
def typedAfter (tgt : Str) : Nat → Str
  | 0 => []
  | k + 1 => typeStep tgt (typedAfter tgt k)

/-- The revealed character count described by the spec's time-based
interpolation (and implemented by the part_011 variant of `typeContent`):
`Math.floor(to.length * Math.min(elapsed / (500 + to.length * 2), 1))`. -/
def timeBasedTargetIndex (len elapsedMs : Nat) : Nat :=
  min (len * elapsedMs / (500 + len * 2)) len

/-! ### Apply session: animation scheduling, cancellation and commit
(CodeDisplay effect lines 200-243; App.tsx `handleAnimationComplete`
lines 319-353) -/

/-- The single outstanding callback of an apply session: a typing
animation frame, or the 50 ms completion `setTimeout` between files. -/
inductive PendingCb
  | frame
  | timeout
deriving DecidableEq, Repr

/-- Session state: index of the file being typed, its revealed length, the
outstanding callback, and the host's committed log. -/
structure ApplyState where
  fileIdx : Nat
  typed : Nat
  pending : Option PendingCb
  log : HistoryLog
deriving DecidableEq, Repr

inductive ApplyEvent
  | fire
  | cancel
deriving DecidableEq, Repr

/-- `history[currentIndex]?.prompt || "AI edit"` (App.tsx line 326). -/
def lastPromptOf (log : HistoryLog) : Str :=
  if log.currentIndex < 0 then "AI edit".toList
  else
    match log.history.get? log.currentIndex.toNat with
    | some en => if en.prompt.isEmpty then "AI edit".toList else en.prompt
    | none => "AI edit".toList

/-- The scheduled callback fires.  A frame either types `charsPerFrame`
more characters and schedules the next frame, or — once the file is fully
typed — schedules the completion timeout (`setTimeout(resolve, 50)`).
The timeout resumes the `animate` loop: the next file starts typing, or,
after the last file, `onAnimationComplete(aiTargetFiles)` commits a new
history entry built from the full target list
(`handleAnimationComplete`). -/
def fireStep (T : List VFile) (ts : Int) (st : ApplyState) : ApplyState :=
  match st.pending with
  | none => st
  | some PendingCb.frame =>
    let content := ((T.get? st.fileIdx).map VFile.content).getD []
    if st.typed < content.length then
      { st with typed := min content.length (st.typed + charsPerFrame content.length) }
    else { st with pending := some PendingCb.timeout }
  | some PendingCb.timeout =>
    if st.fileIdx + 1 < T.length then
      { st with fileIdx := st.fileIdx + 1, typed := 0, pending := some PendingCb.frame }
    else
      { st with
        pending := none,
        log := appendEdit st.log { files := T, prompt := lastPromptOf st.log, timestamp := ts } }

/-- Effect cleanup (CodeDisplay lines 238-242):
`cancelAnimationFrame(animationFrameRef.current)` cancels a pending
animation frame; a pending completion `setTimeout` is *not* cancelled —
the ref then holds the id of an already-executed frame, for which
`cancelAnimationFrame` is a no-op. -/
def cancelStep (st : ApplyState) : ApplyState :=
  match st.pending with
  | some PendingCb.frame => { st with pending := none }
  | _ => st

def applyStep (T : List VFile) (ts : Int) (st : ApplyState) : ApplyEvent → ApplyState
  | ApplyEvent.fire => fireStep T ts st
  | ApplyEvent.cancel => cancelStep st

/-- Run an apply session (for a non-empty target list, the effect begins
with the first file's first animation frame scheduled) over a schedule of
callback firings and at most one host cancellation. -/
def runApply (T : List VFile) (ts : Int) (st : ApplyState) (evs : List ApplyEvent) : ApplyState :=
  evs.foldl (applyStep T ts) st

/-! ### File tree projector (`buildFileTree`, CodeDisplay lines 57-99) -/

inductive NodeKind
  | fileK
  | folderK
deriving DecidableEq, Repr

/-- A node of the dictionary phase: name, full path, and (for folders) the
`_childrenDict` contents in insertion order. -/
inductive PNode where
  | pfile (name path : Str)
  | pfolder (name path : Str) (children : List PNode)

def PNode.name : PNode → Str
  | PNode.pfile n _ => n
  | PNode.pfolder n _ _ => n

/-- `currentLevel[part]` (property lookup). -/
def lookupNode (level : List PNode) (part : Str) : Option PNode :=
  level.find? (fun n => n.name == part)

/-- Property update: replaces the node while keeping its position (JS
object updates preserve insertion order). -/
def updateNode (level : List PNode) (part : Str) (newNode : PNode) : List PNode :=
  level.map (fun n => if n.name == part then newNode else n)

/-- `parts.slice(0, index + 1).join('/')`. -/
def joinSlash (l : List Str) : Str := List.intercalate "/".toList l

/-- Insert one path's parts into a dictionary level, following
`buildFileTree`'s loop: a missing key is created (a file node exactly for
the last part, a folder node with an empty children dictionary
otherwise); descending into the `_childrenDict` of an existing *file*
node yields `undefined`, and the next iteration's property access on it
throws a TypeError — modelled as `Except.error`. -/
def insertParts (level : List PNode) (parts : List Str) (done : List Str) :
    Except Unit (List PNode) :=
  match parts with
  | [] => Except.ok level
  | [part] =>
    match lookupNode level part with
    | some _ => Except.ok level
    | none => Except.ok (level ++ [PNode.pfile part (joinSlash (done ++ [part]))])
  | part :: rest =>
    match lookupNode level part with
    | some (PNode.pfolder n p children) => do
      let children' ← insertParts children rest (done ++ [part])
      Except.ok (updateNode level part (PNode.pfolder n p children'))
    | some (PNode.pfile _ _) => Except.error ()
    | none => do
      let children' ← insertParts [] rest (done ++ [part])
      Except.ok (level ++ [PNode.pfolder part (joinSlash (done ++ [part])) children'])

/-- The dictionary phase of `buildFileTree` (lines 58-82). -/
def buildDict (files : List VFile) : Except Unit (List PNode) :=
  files.foldlM (fun level f => insertParts level (List.splitOn '/' f.path) []) []

/-- The final tree node (`TreeNode` in the source). -/
inductive TNode where
  | mk (name path : Str) (kind : NodeKind) (children : List TNode)

def TNode.name : TNode → Str
  | TNode.mk n _ _ _ => n

def TNode.kind : TNode → NodeKind
  | TNode.mk _ _ k _ => k

def TNode.children : TNode → List TNode
  | TNode.mk _ _ _ ch => ch

/-- Total order on characters by code point. -/
def charCmp (a b : Char) : Ordering := compare a.toNat b.toNat

/-- Case-insensitive primary character comparison. -/
def primaryCmp (a b : Char) : Ordering := charCmp a.toLower b.toLower

/-- Case tiebreak: lowercase sorts before uppercase. -/
def caseCmp (a b : Char) : Ordering :=
  compare (if a.isUpper then 1 else 0) (if b.isUpper then (1 : Nat) else 0)

/-- Lexicographic lift of a character comparison. -/
def lexCmp (f : Char → Char → Ordering) : Str → Str → Ordering
  | [], [] => Ordering.eq
  | [], _ :: _ => Ordering.lt
  | _ :: _, [] => Ordering.gt
  | a :: as, b :: bs => match f a b with
    | Ordering.eq => lexCmp f as bs
    | o => o

/-- Model of `String.prototype.localeCompare` under the default locale for
ASCII names: case-insensitive primary comparison, ties broken by case
with lowercase first.  (`localeCompare` is host/locale dependent; the
development only uses that the resulting relation is a total, transitive,
case-sensitive order.) -/
def localeCmp (a b : Str) : Ordering :=
  match lexCmp primaryCmp a b with
  | Ordering.eq => lexCmp caseCmp a b
  | o => o

/-- The sort comparator of `buildFileTree` (lines 86-89 and 95-98): equal
kinds compare by `localeCompare` on names, otherwise folders first. -/
def nodeCmp (a b : TNode) : Ordering :=
  if a.kind = b.kind then localeCmp a.name b.name
  else if a.kind = NodeKind.folderK then Ordering.lt else Ordering.gt

/-- `a` may precede `b` under the comparator. -/
def nodeLe (a b : TNode) : Prop := nodeCmp a b ≠ Ordering.gt

instance : DecidableRel nodeLe := fun a b => by unfold nodeLe; infer_instance

/-- `.sort(comparator)`: with this comparator distinct nodes of one level
never tie (names are unique dictionary keys), so the sorted result is the
unique `nodeLe`-ordered permutation whatever sorting algorithm the JS
engine uses. -/
def sortNodes (l : List TNode) : List TNode := List.insertionSort nodeLe l

mutual

/-- `unflatten` (lines 84-93): convert a dictionary node, sorting each
children level with the comparator. -/
def toTNode : PNode → TNode
  | PNode.pfile n p => TNode.mk n p NodeKind.fileK []
  | PNode.pfolder n p children => TNode.mk n p NodeKind.folderK (sortNodes (toForest children))

def toForest : List PNode → List TNode
  | [] => []
  | n :: ns => toTNode n :: toForest ns

end

/-- `buildFileTree` (CodeDisplay lines 57-99): dictionary build, then
recursive unflatten-and-sort of every level including the root. -/
def buildFileTree (files : List VFile) : Except Unit (List TNode) := do
  let dict ← buildDict files
  Except.ok (sortNodes (toForest dict))

/-- The claimed per-level shape: folder nodes precede file nodes, and
nodes of the same kind are in `localeCompare` order by name. -/
def levelOrdered (l : List TNode) : Prop :=
  l.Pairwise (fun a b =>
    (a.kind = NodeKind.fileK → b.kind = NodeKind.fileK)
    ∧ (a.kind = b.kind → localeCmp a.name b.name ≠ Ordering.gt))

mutual

/-- Every level of the node's subtree is ordered as claimed. -/
def nodeOrdered : TNode → Prop
  | TNode.mk _ _ _ ch => levelOrdered ch ∧ forestOrdered ch

/-- Every level of every tree in the forest is ordered as claimed. -/
def forestOrdered : List TNode → Prop
  | [] => True
  | t :: ts => nodeOrdered t ∧ forestOrdered ts

end

/-! ### Preview component state (LivePreview.tsx lines 13-36) -/

structure PreviewState where
  files : List VFile
  activePath : Str
deriving DecidableEq, Repr

inductive PreviewEvent
  | filesChanged (files : List VFile)
  | navigateMsg (path : Str)

/-- The component's reaction to its inputs: a change of the `files` prop
reruns the reset effect `setActivePath('index.html')` (lines 17-19); a
`navigate` message from the iframe sets the path — defaulting an empty
path to `index.html` — when it differs from the current one (lines
22-36). -/
def previewStep (st : PreviewState) : PreviewEvent → PreviewState
  | PreviewEvent.filesChanged fs => { files := fs, activePath := "index.html".toList }
  | PreviewEvent.navigateMsg p =>
    let newPath := if p.isEmpty then "index.html".toList else p
    if newPath ≠ st.activePath then { st with activePath := newPath } else st

/-- The document rendered for a state (the `srcDoc` memo recomputed from
`files` and `activePath`). -/
def previewDoc (st : PreviewState) : Str := srcDoc st.files st.activePath

/-- No occurrence of `lit` starts inside `pre` when the scan continues
into `suf`: used to show that a replace pass copies `pre` verbatim. -/
def NoStart (lit pre suf : Str) : Prop :=
  ∀ i, i < pre.length → ¬ lit <+: (pre.drop i ++ suf)

/-- literal `<script ` (with trailing space): every canonical
`<script src="...">` tag starts with it, while the inline `<script>`
blocks the resolver emits do not contain it. -/
def scriptSpaceLit : Str := "<script ".toList

/-- A position inside `X` from which `lit` could continue into `Y`:
ruled out for every boundary of the output decomposition. -/
def Cross (lit X Y : Str) : Prop :=
  ∀ k, k < lit.length → 0 < k → ¬ (lit.take k <:+ X ∧ lit.drop k <+: Y)

/-! ## Theorems -/

/-! ### History store lemmas -/

theorem undo_history (log : HistoryLog) : (undo log).history = log.history := by
  unfold undo; split <;> rfl

theorem redo_history (log : HistoryLog) : (redo log).history = log.history := by
  unfold redo; split <;> rfl

theorem appendEdit_def (log : HistoryLog) (e : HistoryEntry) :
    appendEdit log e
      = { history := jsSlice0 (log.currentIndex + 1) log.history ++ [e],
          currentIndex := ((jsSlice0 (log.currentIndex + 1) log.history ++ [e]).length : Int) - 1 } :=
  rfl

theorem appendEdit_tail (l : List HistoryEntry) (e : HistoryEntry) :
    appendEdit { history := l, currentIndex := (l.length : Int) - 1 } e
      = { history := l ++ [e], currentIndex := ((l ++ [e]).length : Int) - 1 } := by
  unfold appendEdit jsSlice0
  have h1 : ((l.length : Int) - 1 + 1) = (l.length : Int) := by ring
  have h2 : ¬ ((l.length : Int) < 0) := by omega
  simp [h1, h2]

theorem appendAll_from (es : List HistoryEntry) : ∀ l : List HistoryEntry,
    es.foldl appendEdit { history := l, currentIndex := (l.length : Int) - 1 }
      = { history := l ++ es, currentIndex := ((l ++ es).length : Int) - 1 } := by
  induction es with
  | nil => intro l; simp
  | cons e es ih =>
    intro l
    rw [List.foldl_cons, appendEdit_tail, ih (l ++ [e])]
    simp

theorem appendAll_emptyLog (es : List HistoryEntry) :
    es.foldl appendEdit emptyLog
      = { history := es, currentIndex := (es.length : Int) - 1 } := by
  have h : emptyLog = { history := ([] : List HistoryEntry), currentIndex := ((([] : List HistoryEntry)).length : Int) - 1 } := rfl
  rw [h, appendAll_from]
  simp

theorem undo_iter_index (es : List HistoryEntry) (k : Nat) (hk : k + 1 ≤ es.length) :
    undo^[k] { history := es, currentIndex := (es.length : Int) - 1 }
      = { history := es, currentIndex := (es.length : Int) - 1 - k } := by
  induction k with
  | zero => simp
  | succ k ih =>
    have hk' : k + 1 ≤ es.length := by omega
    rw [Function.iterate_succ_apply', ih hk']
    unfold undo
    have hpos : (0 : Int) < (es.length : Int) - 1 - k := by
      have : (k : Int) + 2 ≤ (es.length : Int) := by exact_mod_cast hk
      omega
    rw [if_pos hpos]
    simp
    ring

theorem logInv_appendEdit (log : HistoryLog) (e : HistoryEntry) : logInv (appendEdit log e) := by
  intro _
  unfold appendEdit
  dsimp only
  have h1 : 1 ≤ (jsSlice0 (log.currentIndex + 1) log.history ++ [e]).length := by simp
  constructor <;> omega

theorem logInv_undo : ∀ log : HistoryLog, logInv log → logInv (undo log) := by
  rintro ⟨hist, idx⟩ h
  unfold undo
  dsimp only
  by_cases hc : (0 : Int) < idx
  · rw [if_pos hc]
    intro hne
    dsimp only at hne
    obtain ⟨h0, h1⟩ := h hne
    dsimp only at h0 h1 ⊢
    exact ⟨by omega, by omega⟩
  · rw [if_neg hc]
    exact h

theorem logInv_redo : ∀ log : HistoryLog, logInv log → logInv (redo log) := by
  rintro ⟨hist, idx⟩ h
  unfold redo
  dsimp only
  by_cases hc : idx < (hist.length : Int) - 1
  · rw [if_pos hc]
    intro hne
    dsimp only at hne
    obtain ⟨h0, h1⟩ := h hne
    dsimp only at h0 h1 ⊢
    exact ⟨by omega, by omega⟩
  · rw [if_neg hc]
    exact h

/-- **C3**: History is strictly linear.  Undo and redo only move
`currentIndex` and never mutate the entry list; every new edit truncates
the list to `currentIndex + 1` (JS `slice`) and appends one entry;
consequently, after `n` appends followed by `k` valid undos followed by
one new append the list has `n - k + 1` entries with `currentIndex` at
the last one; and `0 ≤ currentIndex < history.length` is preserved by all
three operations whenever the list is non-empty. -/
theorem C3_history_linearity :
    (∀ log : HistoryLog, (undo log).history = log.history ∧ (redo log).history = log.history)
    ∧ (∀ (log : HistoryLog) (e : HistoryEntry),
        (appendEdit log e).history = jsSlice0 (log.currentIndex + 1) log.history ++ [e]
        ∧ (appendEdit log e).currentIndex = ((appendEdit log e).history.length : Int) - 1)
    ∧ (∀ (es : List HistoryEntry) (k : Nat) (e : HistoryEntry),
        1 ≤ es.length → k ≤ es.length - 1 →
        (appendEdit (undo^[k] (es.foldl appendEdit emptyLog)) e).history.length = es.length - k + 1
        ∧ (appendEdit (undo^[k] (es.foldl appendEdit emptyLog)) e).currentIndex
            = (((appendEdit (undo^[k] (es.foldl appendEdit emptyLog)) e).history.length : Int) - 1))
    ∧ (∀ log : HistoryLog, logInv log → logInv (undo log) ∧ logInv (redo log))
    ∧ (∀ (log : HistoryLog) (e : HistoryEntry), logInv (appendEdit log e)) := by
  refine ⟨fun log => ⟨undo_history log, redo_history log⟩,
    fun log e => ⟨rfl, rfl⟩, ?_,
    fun log h => ⟨logInv_undo log h, logInv_redo log h⟩,
    fun log e => logInv_appendEdit log e⟩
  intro es k e h1 hk
  have hk1 : k + 1 ≤ es.length := by omega
  rw [appendAll_emptyLog, undo_iter_index es k hk1]
  refine ⟨?_, rfl⟩
  unfold appendEdit jsSlice0
  have hlt : ¬ ((es.length : Int) - 1 - k + 1 < 0) := by omega
  have htn : ((es.length : Int) - 1 - (k : Int) + 1).toNat = es.length - k := by omega
  rw [if_neg hlt, htn]
  simp only [List.length_append, List.length_take, List.length_singleton]
  omega

/-- **C3** witness: three appends, one undo, then a new append yield a
three-entry history with `currentIndex = 2`. -/
theorem C3_witness :
    (1 ≤ ([⟨[], "a".toList, 1⟩, ⟨[], "b".toList, 2⟩, ⟨[], "c".toList, 3⟩] : List HistoryEntry).length)
    ∧ (1 ≤ ([⟨[], "a".toList, 1⟩, ⟨[], "b".toList, 2⟩, ⟨[], "c".toList, 3⟩] : List HistoryEntry).length - 1)
    ∧ (appendEdit (undo^[1]
          (([⟨[], "a".toList, 1⟩, ⟨[], "b".toList, 2⟩, ⟨[], "c".toList, 3⟩] : List HistoryEntry).foldl
            appendEdit emptyLog)) ⟨[], "d".toList, 4⟩).history.length
        = ([⟨[], "a".toList, 1⟩, ⟨[], "b".toList, 2⟩, ⟨[], "c".toList, 3⟩] : List HistoryEntry).length - 1 + 1 :=
  ⟨by decide, by decide,
    (C3_history_linearity.2.2.1 [⟨[], "a".toList, 1⟩, ⟨[], "b".toList, 2⟩, ⟨[], "c".toList, 3⟩] 1
      ⟨[], "d".toList, 4⟩ (by decide) (by decide)).1⟩

/-- **C4** (the code contradicts the claim): in an apply session for two
target files, after two animation-frame firings file 0 is fully typed and
only the 50 ms inter-file completion `setTimeout` is outstanding — one of
two files animated.  A host cancellation at that moment runs the effect
cleanup, but `cancelAnimationFrame` does not cancel the pending
`setTimeout` (the ref holds an already-executed frame id), so the session
continues: the remaining firings type file 1 and
`handleAnimationComplete` commits a new `HistoryEntry` — the committed
log is *not* unchanged, violating apply atomicity. -/
theorem C4_cancelled_apply_still_commits :
    (runApply [⟨"index.html".toList, "a".toList⟩, ⟨"style.css".toList, "b".toList⟩] 99
        ⟨0, 0, some PendingCb.frame, ⟨[⟨[], "start".toList, 0⟩], 0⟩⟩
        [ApplyEvent.fire, ApplyEvent.fire]).fileIdx = 0
    ∧ (runApply [⟨"index.html".toList, "a".toList⟩, ⟨"style.css".toList, "b".toList⟩] 99
        ⟨0, 0, some PendingCb.frame, ⟨[⟨[], "start".toList, 0⟩], 0⟩⟩
        [ApplyEvent.fire, ApplyEvent.fire]).pending = some PendingCb.timeout
    ∧ (runApply [⟨"index.html".toList, "a".toList⟩, ⟨"style.css".toList, "b".toList⟩] 99
        ⟨0, 0, some PendingCb.frame, ⟨[⟨[], "start".toList, 0⟩], 0⟩⟩
        [ApplyEvent.fire, ApplyEvent.fire, ApplyEvent.cancel, ApplyEvent.fire, ApplyEvent.fire,
          ApplyEvent.fire, ApplyEvent.fire]).log.history
      = [⟨[], "start".toList, 0⟩]
        ++ [⟨[⟨"index.html".toList, "a".toList⟩, ⟨"style.css".toList, "b".toList⟩],
              "start".toList, 99⟩] := by
  refine ⟨rfl, rfl, rfl⟩

/-- **C7** (counterexample): the live `typeContent` (part_009) reveals
`max(1, ⌊len/200⌋)` characters per animation frame independent of elapsed
time: for a 1000-character file, after the first animation frame exactly
5 characters are revealed even when 600 ms have elapsed, while the
claimed time-based interpolation (elapsed fraction of the
`500 + 2·len` ms duration) mandates 240 characters at 600 ms. -/
theorem C7_counterexample :
    (typedAfter (List.replicate 1000 'a') 1).length = 5
    ∧ timeBasedTargetIndex 1000 600 = 240
    ∧ (typedAfter (List.replicate 1000 'a') 1).length ≠ timeBasedTargetIndex 1000 600 := by
  refine ⟨by decide, by decide, by decide⟩

theorem take_min_length (l : List α) (x : Nat) : l.take (min l.length x) = l.take x := by
  rcases le_total x l.length with h | h
  · rw [min_eq_right h]
  · rw [min_eq_left h, List.take_length, List.take_of_length_le h]

/-- **C7** (amended): the typing animation is frame-count based: after
`k` animation frames exactly `min(len, k·max(1,⌊len/200⌋))` characters
are revealed; the content is fully revealed after `⌊len/cpf⌋ + 1` frames,
and that frame count is bounded by 401 for every content length — so
total animation time is (sub-linearly) bounded in the content length, but
the revealed fraction is not a function of elapsed time. -/
theorem C7_frame_based_reveal :
    (∀ (tgt : Str) (k : Nat),
      typedAfter tgt k = tgt.take (min tgt.length (k * charsPerFrame tgt.length)))
    ∧ (∀ tgt : Str, typedAfter tgt (tgt.length / charsPerFrame tgt.length + 1) = tgt)
    ∧ (∀ tgt : Str, tgt.length / charsPerFrame tgt.length + 1 ≤ 401) := by
  have hcpos : ∀ len : Nat, 0 < charsPerFrame len := by
    intro len; unfold charsPerFrame; omega
  have hmain : ∀ (tgt : Str) (k : Nat),
      typedAfter tgt k = tgt.take (min tgt.length (k * charsPerFrame tgt.length)) := by
    intro tgt k
    induction k with
    | zero => simp [typedAfter]
    | succ k ih =>
      have hlen : (tgt.take (min tgt.length (k * charsPerFrame tgt.length))).length
          = min tgt.length (k * charsPerFrame tgt.length) := by
        rw [List.length_take]
        omega
      show typeStep tgt (typedAfter tgt k) = _
      rw [ih]
      unfold typeStep
      rw [hlen, Nat.succ_mul]
      by_cases hc : min tgt.length (k * charsPerFrame tgt.length) < tgt.length
      · rw [if_pos hc]
        have hk : min tgt.length (k * charsPerFrame tgt.length) = k * charsPerFrame tgt.length := by
          omega
        rw [hk, take_min_length]
      · rw [if_neg hc]
        have h1 : min tgt.length (k * charsPerFrame tgt.length) = tgt.length := by omega
        have h2 : min tgt.length (k * charsPerFrame tgt.length + charsPerFrame tgt.length)
            = tgt.length := by omega
        rw [h1, h2]
  refine ⟨hmain, ?_, ?_⟩
  · intro tgt
    rw [hmain]
    have hc := hcpos tgt.length
    have hlt : tgt.length < tgt.length / charsPerFrame tgt.length * charsPerFrame tgt.length
        + charsPerFrame tgt.length := Nat.lt_div_mul_add hc
    have hmul : (tgt.length / charsPerFrame tgt.length + 1) * charsPerFrame tgt.length
        = tgt.length / charsPerFrame tgt.length * charsPerFrame tgt.length
          + charsPerFrame tgt.length := Nat.succ_mul _ _
    have : min tgt.length ((tgt.length / charsPerFrame tgt.length + 1) * charsPerFrame tgt.length)
        = tgt.length := by omega
    rw [this, List.take_length]
  · intro tgt
    set L := tgt.length with hL
    by_cases h : L ≤ 399
    · have : L / charsPerFrame L ≤ L := Nat.div_le_self _ _
      omega
    · have h200 : 2 ≤ L / 200 := by
        rw [Nat.le_div_iff_mul_le (by norm_num)]
        omega
      have hc : charsPerFrame L = L / 200 := by
        unfold charsPerFrame; omega
      have hLle : L ≤ 199 + (L / 200) * 200 := by
        have hdm := Nat.div_add_mod L 200
        have hmod : L % 200 < 200 := Nat.mod_lt L (by norm_num)
        omega
      have hdiv : L / (L / 200) ≤ (199 + (L / 200) * 200) / (L / 200) :=
        Nat.div_le_div_right hLle
      have hsplit : (199 + (L / 200) * 200) / (L / 200) = 199 / (L / 200) + 200 :=
        Nat.add_mul_div_left 199 200 (by omega)
      have hsmall : 199 / (L / 200) ≤ 99 := by
        calc 199 / (L / 200) ≤ 199 / 2 := Nat.div_le_div_left h200 (by norm_num)
        _ = 99 := by norm_num
      rw [hc]
      omega

/-- **C8** (the code contradicts the claim): a manual save whose
persistence write fails still reports `saved`: the error notice is set by
`updateProjectInDb`, but the deferred `setSaveStatus('saved')` runs
unconditionally, so the status indicator never falls back to `unsaved`. -/
theorem C8_failed_save_reports_saved :
    (manualSave false false [⟨"index.html".toList, "x".toList⟩] 5
        ⟨SaveStatus.unsaved, none, ⟨[⟨[], "start".toList, 0⟩], 0⟩⟩).saveStatus = SaveStatus.saved
    ∧ (manualSave false false [⟨"index.html".toList, "x".toList⟩] 5
        ⟨SaveStatus.unsaved, none, ⟨[⟨[], "start".toList, 0⟩], 0⟩⟩).errorNotice
      = some "Failed to save changes. Please check your connection.".toList := by
  refine ⟨rfl, rfl⟩

/-- **C9** (counterexample): `generateWebApp` decides "editing" by
`baseFiles.length > 0`, not by whether base files were supplied: a call
with a *supplied but empty* base file list is treated as a new-project
generation and `assets/.gitkeep` is appended, contradicting "for edit
requests (base files supplied) no such file is ever added". -/
theorem C9_counterexample :
    finalizeGeneration ⟨some "p".toList, some [⟨"index.html".toList, "x".toList⟩]⟩ (some [])
      = Except.ok ("p".toList, [⟨"index.html".toList, "x".toList⟩, gitkeepFile]) := rfl

/-- **C9** (amended): for a successful new-project generation (no base
files) whose valid response has no `assets/`-prefixed path,
`assets/.gitkeep` is appended; for edit requests with a *non-empty* base
file list the file list is returned unchanged (no marker added); and a
successful new-project generation always returns some `assets/`-prefixed
path. -/
theorem C9_assets_marker :
    (∀ (plan : Str) (fs : List VFile), plan ≠ [] →
      fs.any (fun f => "assets/".toList.isPrefixOf f.path) = false →
      finalizeGeneration ⟨some plan, some fs⟩ none = Except.ok (plan, fs ++ [gitkeepFile]))
    ∧ (∀ (plan : Str) (fs bs : List VFile), plan ≠ [] → bs ≠ [] →
      finalizeGeneration ⟨some plan, some fs⟩ (some bs) = Except.ok (plan, fs))
    ∧ (∀ (plan : Str) (fs : List VFile) (out : Str × List VFile), plan ≠ [] →
      finalizeGeneration ⟨some plan, some fs⟩ none = Except.ok out →
      ∃ f ∈ out.2, "assets/".toList.isPrefixOf f.path = true) := by
  have hplan : ∀ plan : Str, plan ≠ [] → plan.isEmpty = false := by
    intro plan h
    cases plan with
    | nil => exact absurd rfl h
    | cons c cs => rfl
  refine ⟨?_, ?_, ?_⟩
  · intro plan fs hp hno
    unfold finalizeGeneration isEditingOf
    dsimp only
    rw [hplan plan hp, if_neg (by decide : ¬(false = true)), hno, if_pos (by decide)]
  · intro plan fs bs hp hbs
    unfold finalizeGeneration isEditingOf
    dsimp only
    rw [hplan plan hp, if_neg (by decide : ¬(false = true))]
    have hd : decide (0 < bs.length) = true := by
      cases bs with
      | nil => exact absurd rfl hbs
      | cons b bs' => simp
    rw [hd]
    simp only [Bool.not_true, Bool.false_and]
    rw [if_neg (by decide : ¬(false = true))]
  · intro plan fs out hp hok
    unfold finalizeGeneration isEditingOf at hok
    dsimp only at hok
    rw [hplan plan hp, if_neg (by decide : ¬(false = true))] at hok
    cases hany : fs.any (fun f => "assets/".toList.isPrefixOf f.path) with
    | true =>
      rw [hany, if_neg (by decide : ¬((!false && !true) = true))] at hok
      obtain rfl := Except.ok.inj hok
      obtain ⟨f, hf, hpref⟩ := List.any_eq_true.mp hany
      exact ⟨f, hf, hpref⟩
    | false =>
      rw [hany, if_pos (by decide : (!false && !false) = true)] at hok
      obtain rfl := Except.ok.inj hok
      exact ⟨gitkeepFile, by simp, by decide⟩

/-- **C9** witness: a concrete new-project generation gets the marker. -/
theorem C9_witness :
    (("p".toList : Str) ≠ [])
    ∧ ([⟨"index.html".toList, "x".toList⟩] : List VFile).any
        (fun f => "assets/".toList.isPrefixOf f.path) = false
    ∧ finalizeGeneration ⟨some "p".toList, some [⟨"index.html".toList, "x".toList⟩]⟩ none
        = Except.ok ("p".toList, [⟨"index.html".toList, "x".toList⟩] ++ [gitkeepFile]) :=
  ⟨by decide, by decide,
    C9_assets_marker.1 "p".toList [⟨"index.html".toList, "x".toList⟩] (by decide) (by decide)⟩

/-! ### File tree projector: ordering of the comparator and the claims -/

theorem lexCmp_cons (f : Char → Char → Ordering) (a b : Char) (as bs : Str) :
    lexCmp f (a :: as) (b :: bs)
      = match f a b with
        | Ordering.eq => lexCmp f as bs
        | o => o := rfl

theorem lexCmp_swap (k : Char → Nat) :
    ∀ s t : Str, (lexCmp (fun a b => compare (k a) (k b)) s t).swap
      = lexCmp (fun a b => compare (k a) (k b)) t s := by
  intro s
  induction s with
  | nil => intro t; cases t <;> rfl
  | cons a as ih =>
    intro t
    cases t with
    | nil => rfl
    | cons b bs =>
      rw [lexCmp_cons, lexCmp_cons]
      rcases Nat.lt_trichotomy (k a) (k b) with h | h | h
      · rw [Nat.compare_eq_lt.mpr h, Nat.compare_eq_gt.mpr h]
        rfl
      · rw [Nat.compare_eq_eq.mpr h, Nat.compare_eq_eq.mpr h.symm]
        exact ih bs
      · rw [Nat.compare_eq_gt.mpr h, Nat.compare_eq_lt.mpr h]
        rfl

theorem lexCmp_eq_iff (k : Char → Nat) :
    ∀ s t : Str, lexCmp (fun a b => compare (k a) (k b)) s t = Ordering.eq
      ↔ s.map k = t.map k := by
  intro s
  induction s with
  | nil =>
    intro t
    cases t with
    | nil => simp [lexCmp]
    | cons b bs => simp [lexCmp]
  | cons a as ih =>
    intro t
    cases t with
    | nil => simp [lexCmp]
    | cons b bs =>
      rw [lexCmp_cons]
      rcases Nat.lt_trichotomy (k a) (k b) with h | h | h
      · rw [Nat.compare_eq_lt.mpr h]
        simp
        omega
      · rw [Nat.compare_eq_eq.mpr h]
        simp [h, ih bs]
      · rw [Nat.compare_eq_gt.mpr h]
        simp
        omega

theorem lexCmp_lt_trans (k : Char → Nat) :
    ∀ s t u : Str, lexCmp (fun a b => compare (k a) (k b)) s t = Ordering.lt →
      lexCmp (fun a b => compare (k a) (k b)) t u = Ordering.lt →
      lexCmp (fun a b => compare (k a) (k b)) s u = Ordering.lt := by
  intro s
  induction s with
  | nil =>
    intro t u h1 h2
    cases t with
    | nil => exact h2
    | cons b bs =>
      cases u with
      | nil => cases h2
      | cons c cs => rfl
  | cons a as ih =>
    intro t u h1 h2
    cases t with
    | nil => cases h1
    | cons b bs =>
      cases u with
      | nil => cases h2
      | cons c cs =>
        rw [lexCmp_cons] at h1 h2 ⊢
        rcases Nat.lt_trichotomy (k a) (k b) with hab | hab | hab
        · rcases Nat.lt_trichotomy (k b) (k c) with hbc | hbc | hbc
          · rw [Nat.compare_eq_lt.mpr (by omega)]
          · rw [Nat.compare_eq_lt.mpr (by omega)]
          · rw [Nat.compare_eq_gt.mpr hbc] at h2
            cases h2
        · rcases Nat.lt_trichotomy (k b) (k c) with hbc | hbc | hbc
          · rw [Nat.compare_eq_lt.mpr (by omega)]
          · rw [Nat.compare_eq_eq.mpr hab] at h1
            rw [Nat.compare_eq_eq.mpr hbc] at h2
            rw [Nat.compare_eq_eq.mpr (by omega)]
            exact ih bs cs h1 h2
          · rw [Nat.compare_eq_gt.mpr hbc] at h2
            cases h2
        · rw [Nat.compare_eq_gt.mpr hab] at h1
          cases h1

theorem lexCmp_congr_left (k : Char → Nat) :
    ∀ s s' t : Str, s.map k = s'.map k →
      lexCmp (fun a b => compare (k a) (k b)) s t
        = lexCmp (fun a b => compare (k a) (k b)) s' t := by
  intro s
  induction s with
  | nil =>
    intro s' t h
    cases s' with
    | nil => rfl
    | cons a' as' => cases h
  | cons a as ih =>
    intro s' t h
    cases s' with
    | nil => cases h
    | cons a' as' =>
      simp only [List.map_cons, List.cons.injEq] at h
      cases t with
      | nil => rfl
      | cons b bs =>
        rw [lexCmp_cons, lexCmp_cons, h.1, ih as' bs h.2]

theorem lexCmp_congr_right (k : Char → Nat) :
    ∀ s t t' : Str, t.map k = t'.map k →
      lexCmp (fun a b => compare (k a) (k b)) s t
        = lexCmp (fun a b => compare (k a) (k b)) s t' := by
  intro s
  induction s with
  | nil =>
    intro t t' h
    cases t with
    | nil => cases t' with
      | nil => rfl
      | cons a' as' => cases h
    | cons a as => cases t' with
      | nil => cases h
      | cons a' as' => rfl
  | cons a as ih =>
    intro t t' h
    cases t with
    | nil => cases t' with
      | nil => rfl
      | cons b' bs' => cases h
    | cons b bs => cases t' with
      | nil => cases h
      | cons b' bs' =>
        simp only [List.map_cons, List.cons.injEq] at h
        rw [lexCmp_cons, lexCmp_cons, h.1, ih bs bs' h.2]

theorem lexCmp_ne_gt_trans (k : Char → Nat) (s t u : Str)
    (h1 : lexCmp (fun a b => compare (k a) (k b)) s t ≠ Ordering.gt)
    (h2 : lexCmp (fun a b => compare (k a) (k b)) t u ≠ Ordering.gt) :
    lexCmp (fun a b => compare (k a) (k b)) s u ≠ Ordering.gt := by
  cases hst : lexCmp (fun a b => compare (k a) (k b)) s t with
  | gt => exact absurd hst h1
  | lt =>
    cases htu : lexCmp (fun a b => compare (k a) (k b)) t u with
    | gt => exact absurd htu h2
    | lt => rw [lexCmp_lt_trans k s t u hst htu]; intro h; cases h
    | eq =>
      rw [lexCmp_congr_right k s t u ((lexCmp_eq_iff k t u).mp htu), hst] at *
      intro h; cases h
  | eq =>
    cases htu : lexCmp (fun a b => compare (k a) (k b)) t u with
    | gt => exact absurd htu h2
    | lt =>
      rw [lexCmp_congr_left k s t u ((lexCmp_eq_iff k s t).mp hst), htu]
      intro h; cases h
    | eq =>
      have : s.map k = u.map k := ((lexCmp_eq_iff k s t).mp hst).trans ((lexCmp_eq_iff k t u).mp htu)
      rw [(lexCmp_eq_iff k s u).mpr this]; intro h; cases h

theorem primaryCmp_swap (s t : Str) :
    (lexCmp primaryCmp s t).swap = lexCmp primaryCmp t s :=
  lexCmp_swap (fun c => c.toLower.toNat) s t

theorem primaryCmp_eq_iff (s t : Str) :
    lexCmp primaryCmp s t = Ordering.eq
      ↔ s.map (fun c => c.toLower.toNat) = t.map (fun c => c.toLower.toNat) :=
  lexCmp_eq_iff (fun c => c.toLower.toNat) s t

theorem primaryCmp_lt_trans (s t u : Str) (h1 : lexCmp primaryCmp s t = Ordering.lt)
    (h2 : lexCmp primaryCmp t u = Ordering.lt) : lexCmp primaryCmp s u = Ordering.lt :=
  lexCmp_lt_trans (fun c => c.toLower.toNat) s t u h1 h2

theorem primaryCmp_congr_left (s s' t : Str)
    (h : s.map (fun c => c.toLower.toNat) = s'.map (fun c => c.toLower.toNat)) :
    lexCmp primaryCmp s t = lexCmp primaryCmp s' t :=
  lexCmp_congr_left (fun c => c.toLower.toNat) s s' t h

theorem primaryCmp_congr_right (s t t' : Str)
    (h : t.map (fun c => c.toLower.toNat) = t'.map (fun c => c.toLower.toNat)) :
    lexCmp primaryCmp s t = lexCmp primaryCmp s t' :=
  lexCmp_congr_right (fun c => c.toLower.toNat) s t t' h

theorem caseCmp_swap (s t : Str) :
    (lexCmp caseCmp s t).swap = lexCmp caseCmp t s :=
  lexCmp_swap (fun c => if c.isUpper then (1 : Nat) else 0) s t

theorem caseCmp_ne_gt_trans (s t u : Str) (h1 : lexCmp caseCmp s t ≠ Ordering.gt)
    (h2 : lexCmp caseCmp t u ≠ Ordering.gt) : lexCmp caseCmp s u ≠ Ordering.gt :=
  lexCmp_ne_gt_trans (fun c => if c.isUpper then (1 : Nat) else 0) s t u h1 h2

theorem localeCmp_swap (a b : Str) : (localeCmp a b).swap = localeCmp b a := by
  unfold localeCmp
  rw [← primaryCmp_swap a b]
  cases lexCmp primaryCmp a b with
  | lt => rfl
  | gt => rfl
  | eq => exact caseCmp_swap a b

theorem localeCmp_ne_gt_trans (a b c : Str)
    (h1 : localeCmp a b ≠ Ordering.gt) (h2 : localeCmp b c ≠ Ordering.gt) :
    localeCmp a c ≠ Ordering.gt := by
  unfold localeCmp at *
  cases hab : lexCmp primaryCmp a b with
  | gt => rw [hab] at h1; exact absurd rfl h1
  | lt =>
    cases hbc : lexCmp primaryCmp b c with
    | gt => rw [hbc] at h2; exact absurd rfl h2
    | lt =>
      rw [primaryCmp_lt_trans a b c hab hbc]
      intro h; cases h
    | eq =>
      rw [← primaryCmp_congr_right a b c ((primaryCmp_eq_iff b c).mp hbc), hab]
      intro h; cases h
  | eq =>
    cases hbc : lexCmp primaryCmp b c with
    | gt => rw [hbc] at h2; exact absurd rfl h2
    | lt =>
      rw [primaryCmp_congr_left a b c ((primaryCmp_eq_iff a b).mp hab), hbc]
      intro h; cases h
    | eq =>
      have hac : lexCmp primaryCmp a c = Ordering.eq := (primaryCmp_eq_iff a c).mpr
        (((primaryCmp_eq_iff a b).mp hab).trans ((primaryCmp_eq_iff b c).mp hbc))
      rw [hab] at h1
      rw [hbc] at h2
      rw [hac]
      exact caseCmp_ne_gt_trans a b c h1 h2

theorem nodeCmp_swap (a b : TNode) : (nodeCmp a b).swap = nodeCmp b a := by
  unfold nodeCmp
  by_cases h : a.kind = b.kind
  · rw [if_pos h, if_pos h.symm]
    exact localeCmp_swap _ _
  · cases hka : a.kind <;> cases hkb : b.kind
    · exact absurd (hka.trans hkb.symm) h
    · rfl
    · rfl
    · exact absurd (hka.trans hkb.symm) h

theorem nodeLe_total' (a b : TNode) : nodeLe a b ∨ nodeLe b a := by
  unfold nodeLe
  cases hab : nodeCmp a b with
  | gt =>
    right
    rw [← nodeCmp_swap a b, hab]
    intro h; cases h
  | lt => left; intro h; cases h
  | eq => left; intro h; cases h

theorem nodeLe_trans' (a b c : TNode) (h1 : nodeLe a b) (h2 : nodeLe b c) : nodeLe a c := by
  unfold nodeLe nodeCmp at *
  cases hka : a.kind <;> cases hkb : b.kind <;> cases hkc : c.kind <;>
    rw [hka, hkb] at h1 <;> rw [hkb, hkc] at h2 <;>
    simp only [reduceIte, if_true, if_false] at h1 h2 ⊢ <;>
    first
      | exact localeCmp_ne_gt_trans _ _ _ h1 h2
      | exact absurd rfl h1
      | exact absurd rfl h2
      | (intro hx; cases hx)

instance : IsTotal TNode nodeLe := ⟨nodeLe_total'⟩

instance : IsTrans TNode nodeLe := ⟨nodeLe_trans'⟩

theorem sortNodes_sorted (l : List TNode) : List.Sorted nodeLe (sortNodes l) :=
  List.sorted_insertionSort nodeLe l

theorem sortNodes_perm (l : List TNode) : List.Perm (sortNodes l) l :=
  List.perm_insertionSort nodeLe l

theorem sorted_levelOrdered (l : List TNode) (h : List.Sorted nodeLe l) : levelOrdered l := by
  unfold levelOrdered
  refine List.Pairwise.imp ?_ h
  intro a b hle
  unfold nodeLe nodeCmp at hle
  constructor
  · intro hka
    by_cases hk : a.kind = b.kind
    · rw [← hk, hka]
    · rw [if_neg hk, hka] at hle
      rw [if_neg (by intro hh; cases hh)] at hle
      exact absurd rfl hle
  · intro hk
    rw [if_pos hk] at hle
    exact hle

theorem forestOrdered_iff (l : List TNode) : forestOrdered l ↔ ∀ t ∈ l, nodeOrdered t := by
  induction l with
  | nil => simp [forestOrdered]
  | cons t ts ih =>
    unfold forestOrdered
    rw [ih]
    simp

theorem mem_toForest (l : List PNode) (t : TNode) :
    t ∈ toForest l ↔ ∃ q ∈ l, t = toTNode q := by
  induction l with
  | nil => simp [toForest]
  | cons q qs ih =>
    unfold toForest
    simp only [List.mem_cons, ih]
    constructor
    · rintro (h | ⟨q', hq', rfl⟩)
      · exact ⟨q, Or.inl rfl, h⟩
      · exact ⟨q', Or.inr hq', rfl⟩
    · rintro ⟨q', (rfl | hq'), rfl⟩
      · exact Or.inl rfl
      · exact Or.inr ⟨q', hq', rfl⟩

theorem node_ordered_aux : ∀ n : Nat, ∀ p : PNode, sizeOf p ≤ n → nodeOrdered (toTNode p) := by
  intro n
  induction n with
  | zero =>
    intro p h
    cases p <;> simp at h
  | succ n ih =>
    intro p hp
    cases p with
    | pfile nm pth =>
      show nodeOrdered (TNode.mk nm pth NodeKind.fileK [])
      unfold nodeOrdered
      exact ⟨List.Pairwise.nil, trivial⟩
    | pfolder nm pth ch =>
      show nodeOrdered (TNode.mk nm pth NodeKind.folderK (sortNodes (toForest ch)))
      unfold nodeOrdered
      refine ⟨sorted_levelOrdered _ (sortNodes_sorted _), ?_⟩
      rw [forestOrdered_iff]
      intro t ht
      have ht' : t ∈ toForest ch := (sortNodes_perm (toForest ch)).mem_iff.mp ht
      obtain ⟨q, hq, rfl⟩ := (mem_toForest ch t).mp ht'
      have hsz : sizeOf q ≤ n := by
        have h1 : sizeOf q < sizeOf ch := List.sizeOf_lt_of_mem hq
        have h2 : sizeOf ch < sizeOf (PNode.pfolder nm pth ch) := by
          simp
        omega
      exact ih q hsz

theorem toTNode_ordered (p : PNode) : nodeOrdered (toTNode p) :=
  node_ordered_aux (sizeOf p) p le_rfl

/-- **C5**: File-tree projection is a deterministic pure function of the
file set (a pure function in this embedding, so projecting the same set
twice yields the same result), and on every successful projection every
level of the resulting forest has folder nodes before file nodes and
same-kind nodes in `localeCompare` order by name (the source comparator;
modelled as case-aware alphabetical order). -/
theorem C5_tree_projection_sorted :
    (∀ files : List VFile, buildFileTree files = buildFileTree files)
    ∧ (∀ (files : List VFile) (ts : List TNode), buildFileTree files = Except.ok ts →
        levelOrdered ts ∧ forestOrdered ts) := by
  refine ⟨fun _ => rfl, ?_⟩
  intro files ts h
  unfold buildFileTree at h
  cases hd : buildDict files with
  | error e =>
    rw [hd] at h
    cases h
  | ok dict =>
    rw [hd] at h
    have hts : ts = sortNodes (toForest dict) := (Except.ok.inj h).symm
    subst hts
    refine ⟨sorted_levelOrdered _ (sortNodes_sorted _), ?_⟩
    rw [forestOrdered_iff]
    intro t ht
    have ht' : t ∈ toForest dict := (sortNodes_perm (toForest dict)).mem_iff.mp ht
    obtain ⟨q, hq, rfl⟩ := (mem_toForest dict t).mp ht'
    exact toTNode_ordered q

/-- **C5** witness: a concrete five-file project is projected and its
forest is ordered as claimed. -/
theorem C5_witness :
    buildFileTree [⟨"index.html".toList, "h".toList⟩, ⟨"style.css".toList, "c".toList⟩,
        ⟨"assets/logo.png".toList, "i".toList⟩, ⟨"B.js".toList, "b".toList⟩,
        ⟨"a.js".toList, "a".toList⟩]
      = Except.ok ((buildFileTree [⟨"index.html".toList, "h".toList⟩, ⟨"style.css".toList, "c".toList⟩,
        ⟨"assets/logo.png".toList, "i".toList⟩, ⟨"B.js".toList, "b".toList⟩,
        ⟨"a.js".toList, "a".toList⟩]).toOption.getD [])
    ∧ levelOrdered ((buildFileTree [⟨"index.html".toList, "h".toList⟩, ⟨"style.css".toList, "c".toList⟩,
        ⟨"assets/logo.png".toList, "i".toList⟩, ⟨"B.js".toList, "b".toList⟩,
        ⟨"a.js".toList, "a".toList⟩]).toOption.getD [])
    ∧ forestOrdered ((buildFileTree [⟨"index.html".toList, "h".toList⟩, ⟨"style.css".toList, "c".toList⟩,
        ⟨"assets/logo.png".toList, "i".toList⟩, ⟨"B.js".toList, "b".toList⟩,
        ⟨"a.js".toList, "a".toList⟩]).toOption.getD []) := by
  have h := C5_tree_projection_sorted.2
    [⟨"index.html".toList, "h".toList⟩, ⟨"style.css".toList, "c".toList⟩,
      ⟨"assets/logo.png".toList, "i".toList⟩, ⟨"B.js".toList, "b".toList⟩,
      ⟨"a.js".toList, "a".toList⟩]
    ((buildFileTree [⟨"index.html".toList, "h".toList⟩, ⟨"style.css".toList, "c".toList⟩,
      ⟨"assets/logo.png".toList, "i".toList⟩, ⟨"B.js".toList, "b".toList⟩,
      ⟨"a.js".toList, "a".toList⟩]).toOption.getD []) rfl
  exact ⟨rfl, h.1, h.2⟩

/-- **C6** (the code contradicts the claim): on a set where the file
`assets` precedes the file `assets/x`, `buildFileTree` descends into the
file node's undefined `_childrenDict` and the following property access
throws a TypeError (modelled as `Except.error`), instead of returning a
well-formed forest. -/
theorem C6_tree_projection_throws :
    buildFileTree [⟨"assets".toList, [] ⟩, ⟨"assets/x".toList, [] ⟩] = Except.error () := rfl

/-! ### Resolver: global-replace semantics, infix preservation and the
resolver claims C1, C2, C10 -/

/-! generic list layer -/

theorem getLast?_mem (l : Str) (a : Char) (h : l.getLast? = some a) : a ∈ l := by
  induction l with
  | nil => simp at h
  | cons c t ih =>
    cases t with
    | nil => simp at h; simp [h]
    | cons d t' =>
      rw [List.getLast?_cons_cons] at h
      exact List.mem_cons_of_mem _ (ih h)

theorem infix_iff_drop (lit s : Str) : lit <:+: s ↔ ∃ i, lit <+: s.drop i := by
  constructor
  · rintro ⟨U, V, h⟩
    refine ⟨U.length, ?_⟩
    rw [← h, List.append_assoc, List.drop_left]
    exact List.prefix_append _ _
  · rintro ⟨i, t, ht⟩
    refine ⟨s.take i, t, ?_⟩
    rw [List.append_assoc, ht]
    exact List.take_append_drop i s

theorem prefix_append_short (p a b : Str) (h : p <+: a ++ b) (hl : p.length ≤ a.length) :
    p <+: a := by
  have h1 : p = (a ++ b).take p.length := List.prefix_iff_eq_take.1 h
  rw [List.take_append_eq_append_take, Nat.sub_eq_zero_of_le hl, List.take_zero,
    List.append_nil] at h1
  rw [h1]
  exact List.take_prefix _ _

theorem suffix_append_short (s a b : Str) (h : s <:+ a ++ b) (hl : s.length ≤ b.length) :
    s <:+ b := by
  rw [← List.reverse_prefix] at h ⊢
  rw [List.reverse_append] at h
  exact prefix_append_short _ _ _ h (by simpa using hl)

theorem suffix_of_suffix_le (s t l : Str) (hs : s <:+ l) (ht : t <:+ l)
    (hl : s.length ≤ t.length) : s <:+ t := by
  have h1 : s = l.drop (l.length - s.length) := List.suffix_iff_eq_drop.1 hs
  have h2 : t = l.drop (l.length - t.length) := List.suffix_iff_eq_drop.1 ht
  have hle : t.length ≤ l.length := ht.length_le
  have key : t.drop (t.length - s.length) = s := by
    set n := t.length - s.length with hn
    rw [h2, List.drop_drop]
    have harith : l.length - t.length + n = l.length - s.length := by omega
    rw [harith, ← h1]
  rw [← key]
  exact List.drop_suffix _ _

theorem prefix_append_cross (p Z W : Str) (h : p <+: Z ++ W) (hgt : Z.length < p.length) :
    p.take Z.length = Z ∧ p.drop Z.length <+: W := by
  constructor
  · have h1 : p = (Z ++ W).take p.length := List.prefix_iff_eq_take.1 h
    rw [h1, List.take_take, min_eq_left (le_of_lt hgt), List.take_append_eq_append_take,
      Nat.sub_self, List.take_zero, List.append_nil, List.take_length]
  · obtain ⟨t, ht⟩ := h
    refine ⟨t, ?_⟩
    have h2 := congrArg (List.drop Z.length) ht
    rw [List.drop_append_eq_append_drop, List.drop_append_eq_append_drop,
      Nat.sub_eq_zero_of_le (le_of_lt hgt), List.drop_zero, Nat.sub_self, List.drop_zero,
      List.drop_length, List.nil_append] at h2
    exact h2

theorem infix_appL (l X Y : Str) (h : l <:+: X) : l <:+: X ++ Y := by
  obtain ⟨u, v, huv⟩ := h
  exact ⟨u, v ++ Y, by rw [← huv]; simp⟩

theorem infix_appR (l X Y : Str) (h : l <:+: Y) : l <:+: X ++ Y := by
  obtain ⟨u, v, huv⟩ := h
  exact ⟨X ++ u, v, by rw [← huv]; simp⟩

theorem not_infix_mono (lit' lit X : Str) (h : lit' <:+: lit) (h1 : ¬ lit' <:+: X) :
    ¬ lit <:+: X := fun h2 => h1 (h.trans h2)

theorem not_infix_of_headMem (lit X : Str) (ch : Char) (hhd : lit.head? = some ch)
    (hch : ch ∉ X) : ¬ lit <:+: X := by
  intro h
  apply hch
  apply h.subset
  cases lit with
  | nil => simp at hhd
  | cons a l' =>
    have ha : a = ch := by simpa using hhd
    rw [← ha]
    exact List.mem_cons_self _ _

/-! NoStart construction and crossing dischargers -/

theorem noStart_of (lit X Y : Str) (h1 : ¬ lit <:+: X) (h2 : Cross lit X Y) :
    NoStart lit X Y := by
  intro i hi hpre
  by_cases hc : lit.length ≤ (X.drop i).length
  · have hpd : lit <+: X.drop i := prefix_append_short _ _ _ hpre hc
    exact h1 (hpd.isInfix.trans (List.drop_suffix i X).isInfix)
  · push_neg at hc
    obtain ⟨htake, hdrop⟩ := prefix_append_cross lit (X.drop i) Y hpre hc
    have hk0 : 0 < (X.drop i).length := by
      rw [List.length_drop]; omega
    apply h2 (X.drop i).length hc hk0
    refine ⟨?_, hdrop⟩
    rw [htake]
    exact List.drop_suffix i X

theorem not_infix_append (lit X Y : Str) (hY : ¬ lit <:+: Y) (hns : NoStart lit X Y) :
    ¬ lit <:+: (X ++ Y) := by
  intro h
  obtain ⟨i, hi⟩ := (infix_iff_drop lit (X ++ Y)).1 h
  by_cases hlt : i < X.length
  · apply hns i hlt
    rwa [List.drop_append_eq_append_drop, Nat.sub_eq_zero_of_le (le_of_lt hlt),
      List.drop_zero] at hi
  · push_neg at hlt
    apply hY
    rw [infix_iff_drop]
    refine ⟨i - X.length, ?_⟩
    rwa [List.drop_append_eq_append_drop, List.drop_eq_nil_of_le hlt, List.nil_append] at hi

theorem not_infix_parts (lit X Y : Str) (h1 : ¬ lit <:+: X) (h2 : ¬ lit <:+: Y)
    (hc : Cross lit X Y) : ¬ lit <:+: (X ++ Y) :=
  not_infix_append lit X Y h2 (noStart_of lit X Y h1 hc)

theorem cross_of_head (lit X Y : Str) (ch : Char) (hY : Y.head? = some ch)
    (hk : ∀ k, k < lit.length → 0 < k → (lit.drop k).head? ≠ some ch) :
    Cross lit X Y := by
  intro k hlen h0 hand
  obtain ⟨-, hp⟩ := hand
  apply hk k hlen h0
  obtain ⟨t, ht⟩ := hp
  have hne : lit.drop k ≠ [] := by
    intro hh
    have := congrArg List.length hh
    rw [List.length_drop] at this
    simp at this
    omega
  cases hd : lit.drop k with
  | nil => exact absurd hd hne
  | cons a l' =>
    rw [hd] at ht
    rw [← hY, ← ht]
    rfl

theorem cross_of_last (lit X Y : Str) (ch : Char) (hX : X.getLast? = some ch) (hch : ch ∉ lit) :
    Cross lit X Y := by
  intro k hlen h0 hand
  obtain ⟨hs, -⟩ := hand
  apply hch
  have hkl : (lit.take k).length = k := by
    rw [List.length_take]; omega
  have hne : lit.take k ≠ [] := by
    intro hh; rw [hh] at hkl; simp at hkl; omega
  obtain ⟨W, hW⟩ := hs
  obtain ⟨b, hb⟩ : ∃ b, (lit.take k).getLast? = some b := by
    cases hg : (lit.take k).getLast? with
    | none => exact absurd (List.getLast?_eq_none_iff.1 hg) hne
    | some b => exact ⟨b, rfl⟩
  have hbX : X.getLast? = some b := by
    rw [← hW, List.getLast?_append, hb]; rfl
  have hcb : ch = b := by
    rw [hX] at hbX
    injection hbX
  rw [hcb]
  exact List.take_subset k lit (getLast?_mem _ _ hb)

theorem cross_of_tail (lit X Y W T : Str) (hX : X = W ++ T)
    (hdec : ∀ k, k < lit.length → 0 < k → ¬ (lit.take k <:+ T) ∧ ¬ (T <:+ lit.take k)) :
    Cross lit X Y := by
  intro k hlen h0 hand
  obtain ⟨hs, -⟩ := hand
  obtain ⟨hd1, hd2⟩ := hdec k hlen h0
  rw [hX] at hs
  by_cases hc : (lit.take k).length ≤ T.length
  · exact hd1 (suffix_append_short _ _ _ hs hc)
  · push_neg at hc
    exact hd2 (suffix_of_suffix_le T (lit.take k) (W ++ T) ⟨W, rfl⟩ hs (le_of_lt hc))

theorem cross_of_headMem (lit X Y : Str) (ch : Char) (hhd : lit.head? = some ch) (hch : ch ∉ X) :
    Cross lit X Y := by
  intro k hlen h0 hand
  obtain ⟨hs, -⟩ := hand
  apply hch
  apply hs.subset
  cases lit with
  | nil => simp at hhd
  | cons a l' =>
    have ha : a = ch := by simpa using hhd
    cases k with
    | zero => omega
    | succ k' =>
      rw [List.take_succ_cons, ← ha]
      exact List.mem_cons_self _ _

theorem cross_of_nilY (lit X : Str) : Cross lit X [] := by
  intro k hlen h0 hand
  obtain ⟨-, hp⟩ := hand
  have := hp.length_le
  rw [List.length_drop] at this
  simp at this
  omega

/-! global-replace scan lemmas -/

theorem gRep_fuel (m : Str → Option (Nat × Str)) (r : Str → Str → Str) :
    ∀ f1 f2 : Nat, ∀ s : Str, s.length ≤ f1 → s.length ≤ f2 →
    gRep m r f1 s = gRep m r f2 s := by
  intro f1
  induction f1 with
  | zero =>
    intro f2 s h1 _
    have hs : s = [] := List.eq_nil_of_length_eq_zero (Nat.le_zero.1 h1)
    subst hs
    cases f2 <;> rfl
  | succ f ih =>
    intro f2 s h1 h2
    cases s with
    | nil => cases f2 <;> rfl
    | cons c s' =>
      cases f2 with
      | zero => simp at h2
      | succ f2' =>
        cases hm : m (c :: s') with
        | none =>
          simp only [gRep, hm]
          have hl : s'.length ≤ f := by simp at h1; omega
          have hl2 : s'.length ≤ f2' := by simp at h2; omega
          rw [ih f2' s' hl hl2]
        | some v =>
          obtain ⟨n, cap⟩ := v
          simp only [gRep, hm]
          by_cases hn : 1 ≤ n
          · rw [if_pos hn, if_pos hn]
            congr 1
            apply ih
            · rw [List.length_drop]; simp at h1 ⊢; omega
            · rw [List.length_drop]; simp at h2 ⊢; omega
          · rw [if_neg hn, if_neg hn]
            have hl : s'.length ≤ f := by simp at h1; omega
            have hl2 : s'.length ≤ f2' := by simp at h2; omega
            rw [ih f2' s' hl hl2]

theorem gReplace_cons_none (m : Str → Option (Nat × Str)) (r : Str → Str → Str)
    (c : Char) (s' : Str) (h : m (c :: s') = none) :
    gReplace m r (c :: s') = c :: gReplace m r s' := by
  unfold gReplace
  simp only [List.length_cons, gRep, h]

theorem gReplace_cons_match (m : Str → Option (Nat × Str)) (r : Str → Str → Str)
    (c : Char) (s' : Str) (n : Nat) (cap : Str)
    (h : m (c :: s') = some (n, cap)) (hn : 1 ≤ n) :
    gReplace m r (c :: s') =
      r cap ((c :: s').take n) ++ gReplace m r ((c :: s').drop n) := by
  unfold gReplace
  simp only [List.length_cons, gRep, h]
  rw [if_pos hn]
  congr 1
  apply gRep_fuel
  · rw [List.length_drop]; simp; omega
  · exact Nat.le_refl _

theorem gReplace_skip (m : Str → Option (Nat × Str)) (r : Str → Str → Str) (lit : Str)
    (hm : ∀ s, (m s).isSome = true → lit <+: s) :
    ∀ pre suf : Str, NoStart lit pre suf →
    gReplace m r (pre ++ suf) = pre ++ gReplace m r suf := by
  intro pre
  induction pre with
  | nil => intro suf _; simp
  | cons c p ih =>
    intro suf h
    have h0 : ¬ lit <+: (c :: (p ++ suf)) := by
      have := h 0 (by simp)
      simpa using this
    have hnone : m (c :: (p ++ suf)) = none := by
      cases hmc : m (c :: (p ++ suf)) with
      | none => rfl
      | some v => exact absurd (hm _ (by rw [hmc]; rfl)) h0
    have hsh : NoStart lit p suf := by
      intro i hi
      have := h (i + 1) (by simpa using Nat.succ_lt_succ hi)
      simpa using this
    rw [List.cons_append, gReplace_cons_none m r c (p ++ suf) hnone, ih suf hsh]
    rfl

theorem gReplace_untouched (m : Str → Option (Nat × Str)) (r : Str → Str → Str) (lit : Str)
    (hm : ∀ s, (m s).isSome = true → lit <+: s) (s : Str) (h : ¬ lit <:+: s) :
    gReplace m r s = s := by
  have hns : NoStart lit s [] := by
    intro i hi hp
    rw [List.append_nil] at hp
    exact h (hp.isInfix.trans (List.drop_suffix i s).isInfix)
  have h2 := gReplace_skip m r lit hm s [] hns
  rw [List.append_nil] at h2
  rw [h2]
  have h3 : gReplace m r [] = [] := rfl
  rw [h3, List.append_nil]

/-! first-occurrence replacement lemmas -/

theorem occursIn_iff (pat s : Str) : occursIn pat s = true ↔ pat <:+: s := by
  induction s with
  | nil =>
    simp only [occursIn, List.isEmpty_iff, List.infix_nil]
  | cons c s' ih =>
    rw [occursIn, Bool.or_eq_true, ih,  List.isPrefixOf_iff_prefix]
    constructor
    · rintro (h | h)
      · exact h.isInfix
      · exact List.infix_cons h
    · rintro ⟨U, V, huv⟩
      cases U with
      | nil => exact Or.inl ⟨V, by simpa using huv⟩
      | cons u U' =>
        refine Or.inr ⟨U', V, ?_⟩
        rw [List.append_assoc] at huv ⊢
        have h2 := congrArg List.tail huv
        simpa using h2

theorem not_infix_of_occursIn (pat s : Str) (h : occursIn pat s = false) : ¬ pat <:+: s := by
  intro hh
  rw [← occursIn_iff] at hh
  rw [h] at hh
  exact Bool.false_ne_true hh

theorem rfo_skip (pat rep : Str) : ∀ X Y : Str, NoStart pat X Y →
    replaceFirstOcc pat rep (X ++ Y) = X ++ replaceFirstOcc pat rep Y := by
  intro X
  induction X with
  | nil => intro Y _; simp
  | cons c p ih =>
    intro Y h
    have h0 : ¬ pat.isPrefixOf (c :: (p ++ Y)) = true := by
      rw [ List.isPrefixOf_iff_prefix]
      have := h 0 (by simp)
      simpa using this
    have hsh : NoStart pat p Y := by
      intro i hi
      have := h (i + 1) (by simpa using Nat.succ_lt_succ hi)
      simpa using this
    rw [List.cons_append, replaceFirstOcc, if_neg h0, ih Y hsh]
    rfl

theorem rfo_hit (pat rep X : Str) (hne : pat ≠ []) :
    replaceFirstOcc pat rep (pat ++ X) = rep ++ X := by
  obtain ⟨a, p', hp⟩ : ∃ a p', pat = a :: p' := by
    cases pat with
    | nil => exact absurd rfl hne
    | cons a p' => exact ⟨a, p', rfl⟩
  subst hp
  rw [List.cons_append, replaceFirstOcc]
  rw [if_pos (by rw [ List.isPrefixOf_iff_prefix, ← List.cons_append]; exact List.prefix_append _ _)]
  rw [← List.cons_append, List.drop_left]

theorem rfo_split (pat rep : Str) (hne : pat ≠ []) :
    ∀ s : Str, occursIn pat s = true →
    ∃ U V, s = U ++ (pat ++ V) ∧ replaceFirstOcc pat rep s = U ++ (rep ++ V) := by
  intro s
  induction s with
  | nil =>
    intro h
    simp only [occursIn, List.isEmpty_iff] at h
    exact absurd h hne
  | cons c s' ih =>
    intro h
    by_cases hp : pat.isPrefixOf (c :: s') = true
    · have hpre :=  List.isPrefixOf_iff_prefix.1 hp
      obtain ⟨t, ht⟩ := hpre
      refine ⟨[], t, by rw [List.nil_append, ht], ?_⟩
      rw [replaceFirstOcc, if_pos hp, ← ht, List.drop_left, List.nil_append]
    · rw [occursIn, Bool.or_eq_true] at h
      cases h with
      | inl h => exact absurd h hp
      | inr h =>
        obtain ⟨U, V, h1, h2⟩ := ih h
        refine ⟨c :: U, V, by rw [List.cons_append, ← h1], ?_⟩
        rw [replaceFirstOcc, if_neg hp, h2]
        rfl

theorem rfo_pres (pat rep M Y : Str) (hnsM : NoStart pat M Y) :
    ∀ X : Str, Cross pat X (M ++ Y) →
    ∃ U V, replaceFirstOcc pat rep (X ++ (M ++ Y)) = U ++ (M ++ V) := by
  intro X
  induction X with
  | nil =>
    intro _
    rw [List.nil_append, rfo_skip pat rep M Y hnsM]
    exact ⟨[], replaceFirstOcc pat rep Y, by rw [List.nil_append]⟩
  | cons c X' ih =>
    intro hcross
    by_cases hp : pat.isPrefixOf (c :: (X' ++ (M ++ Y))) = true
    · have hpre :=  List.isPrefixOf_iff_prefix.1 hp
      have hpre2 : pat <+: (c :: X') ++ (M ++ Y) := by rwa [List.cons_append]
      have hlen : pat.length ≤ (c :: X').length := by
        by_contra hgt
        push_neg at hgt
        obtain ⟨htake, hdrop⟩ := prefix_append_cross pat (c :: X') (M ++ Y) hpre2 hgt
        have hk0 : 0 < (c :: X').length := by simp
        apply hcross (c :: X').length hgt hk0
        refine ⟨?_, hdrop⟩
        rw [htake]
      rw [List.cons_append, replaceFirstOcc, if_pos hp, ← List.cons_append,
        List.drop_append_eq_append_drop, Nat.sub_eq_zero_of_le hlen, List.drop_zero]
      exact ⟨rep ++ (c :: X').drop pat.length, Y, by rw [List.append_assoc]⟩
    · have hcross' : Cross pat X' (M ++ Y) := by
        intro k hk h0 hand
        obtain ⟨hs, hd⟩ := hand
        exact hcross k hk h0 ⟨hs.trans ⟨[c], rfl⟩, hd⟩
      obtain ⟨U, V, hUV⟩ := ih hcross'
      refine ⟨c :: U, V, ?_⟩
      rw [List.cons_append, replaceFirstOcc, if_neg hp, hUV]
      rfl

/-! capture scan lemmas -/

theorem capsAt_none (m : Str → Option (Nat × Str)) (lit : Str)
    (hm : ∀ s, (m s).isSome = true → lit <+: s) :
    ∀ fuel : Nat, ∀ s : Str, ¬ lit <:+: s → capsAt m fuel s = [] := by
  intro fuel
  induction fuel with
  | zero => intro s _; rfl
  | succ f ih =>
    intro s h
    cases s with
    | nil => rfl
    | cons c s' =>
      have hnone : m (c :: s') = none := by
        cases hmc : m (c :: s') with
        | none => rfl
        | some v => exact absurd ((hm _ (by rw [hmc]; rfl)).isInfix) h
      simp only [capsAt, hnone]
      exact ih s' (fun h' => h (List.infix_cons h'))

theorem capsOf_none (m : Str → Option (Nat × Str)) (lit : Str)
    (hm : ∀ s, (m s).isSome = true → lit <+: s) (s : Str) (h : ¬ lit <:+: s) :
    capsOf m s = [] :=
  capsAt_none m lit hm s.length s h

/-! the two matchers only fire on their leading literal -/

theorem linkMatch_starts (s : Str) (h : (linkMatchAt s).isSome = true) : linkLit <+: s := by
  unfold linkMatchAt at h
  by_cases hp : linkLit.isPrefixOf s = true
  · exact  List.isPrefixOf_iff_prefix.1 hp
  · rw [if_neg hp] at h
    simp at h

theorem scriptMatch_starts (s : Str) (h : (scriptMatchAt s).isSome = true) :
    scriptLit <+: s := by
  unfold scriptMatchAt at h
  by_cases hp : scriptLit.isPrefixOf s = true
  · exact  List.isPrefixOf_iff_prefix.1 hp
  · rw [if_neg hp] at h
    simp at h

/-! canonical tag matching -/

theorem takeWhile_middle (pred : Char → Bool) : ∀ p : Str, ∀ c : Char, ∀ t : Str,
    (∀ x ∈ p, pred x = true) → pred c = false →
    (p ++ c :: t).takeWhile pred = p ∧ (p ++ c :: t).dropWhile pred = c :: t := by
  intro p
  induction p with
  | nil =>
    intro c t _ hc
    rw [List.nil_append]
    constructor
    · rw [List.takeWhile_cons, hc]; simp
    · rw [List.dropWhile_cons, hc]; simp
  | cons a p' ih =>
    intro c t hp hc
    have ha : pred a = true := hp a (List.mem_cons_self _ _)
    obtain ⟨ih1, ih2⟩ := ih c t (fun x hx => hp x (List.mem_cons_of_mem _ hx)) hc
    rw [List.cons_append]
    constructor
    · rw [List.takeWhile_cons, ha, ih1]; simp
    · rw [List.dropWhile_cons, ha, ih2]; simp

theorem hrefTail_canonical (p rest : Str) (hq : ∀ c ∈ p, c ≠ '"')
    (hcss : cssExt <:+ p) (hlen : 5 ≤ p.length) :
    hrefTail (hrefLit ++ (p ++ ('"' :: '>' :: rest))) = some (p.length + 8, p) := by
  obtain ⟨htw, hdw⟩ := takeWhile_middle (fun c => decide (c ≠ '"')) p '"' ('>' :: rest)
    (fun x hx => by simpa using hq x hx) (by decide)
  simp only [hrefTail]
  rw [if_pos (by rw [ List.isPrefixOf_iff_prefix]; exact List.prefix_append _ _)]
  rw [List.drop_left' (show hrefLit.length = 6 from rfl)]
  rw [htw, hdw]
  rw [if_pos (by
    rw [Bool.and_eq_true]
    exact ⟨by rw [ List.isSuffixOf_iff_suffix]; exact hcss, by simpa using hlen⟩)]
  have hnt : List.takeWhile (fun c => decide (c ≠ '>')) ('>' :: rest) = [] := by
    rw [List.takeWhile_cons]; simp
  have hnd : List.dropWhile (fun c => decide (c ≠ '>')) ('>' :: rest) = '>' :: rest := by
    rw [List.dropWhile_cons]; simp
  simp only [hnt, hnd]
  simp only [List.length_nil]
  have harith : 6 + p.length + 1 + 0 + 1 = p.length + 8 := by omega
  rw [harith]

theorem linkSeek_hit (c : Char) (s' : Str) (r : Nat × Str) (h : hrefTail (c :: s') = some r) :
    linkSeek (c :: s') = some r := by
  simp only [linkSeek, h]

theorem scriptSeek_hit (c : Char) (s' : Str) (r : Nat × Str) (h : srcTail (c :: s') = some r) :
    scriptSeek (c :: s') = some r := by
  simp only [scriptSeek, h]

theorem linkMatchAt_canonical (p rest : Str) (hq : ∀ c ∈ p, c ≠ '"')
    (hcss : cssExt <:+ p) (hlen : 5 ≤ p.length) :
    linkMatchAt (linkTag p ++ rest) = some (p.length + 14, p) := by
  have hseek : linkSeek (hrefLit ++ (p ++ ('"' :: '>' :: rest))) = some (p.length + 8, p) :=
    linkSeek_hit 'h' _ _ (hrefTail_canonical p rest hq hcss hlen)
  have hshape : linkTag p ++ rest
      = '<' :: 'l' :: 'i' :: 'n' :: 'k' :: ' ' :: (hrefLit ++ (p ++ ('"' :: '>' :: rest))) := by
    simp [linkTag, hrefLit]
  rw [hshape]
  unfold linkMatchAt
  have hpref : List.isPrefixOf linkLit
      ('<' :: 'l' :: 'i' :: 'n' :: 'k' :: ' ' :: (hrefLit ++ (p ++ ('"' :: '>' :: rest)))) = true := rfl
  rw [if_pos hpref]
  rw [show List.drop 5
      ('<' :: 'l' :: 'i' :: 'n' :: 'k' :: ' ' :: (hrefLit ++ (p ++ ('"' :: '>' :: rest))))
      = ' ' :: (hrefLit ++ (p ++ ('"' :: '>' :: rest))) from rfl]
  dsimp only
  rw [if_neg (by decide : ¬ (' ' = '\n')), hseek]
  simp
  omega

theorem srcTail_canonical (p rest : Str) (hq : ∀ c ∈ p, c ≠ '"') (hne : p ≠ []) :
    srcTail (srcLit ++ (p ++ ('"' :: '>' :: (endScriptLit ++ rest)))) = some (p.length + 16, p) := by
  obtain ⟨htw, hdw⟩ := takeWhile_middle (fun c => decide (c ≠ '"')) p '"'
    ('>' :: (endScriptLit ++ rest)) (fun x hx => by simpa using hq x hx) (by decide)
  simp only [srcTail]
  rw [if_pos (by rw [ List.isPrefixOf_iff_prefix]; exact List.prefix_append _ _)]
  rw [List.drop_left' (show srcLit.length = 5 from rfl)]
  rw [htw, hdw]
  rw [if_neg (by
    intro hh
    exact hne (List.isEmpty_iff.1 hh))]
  have hnt : List.takeWhile (fun c => decide (c ≠ '>')) ('>' :: (endScriptLit ++ rest)) = [] := by
    rw [List.takeWhile_cons]; simp
  have hnd : List.dropWhile (fun c => decide (c ≠ '>')) ('>' :: (endScriptLit ++ rest))
      = '>' :: (endScriptLit ++ rest) := by
    rw [List.dropWhile_cons]; simp
  simp only [hnt, hnd]
  rw [if_pos (by rw [ List.isPrefixOf_iff_prefix]; exact List.prefix_append _ _)]
  simp only [List.length_nil]
  have harith : 5 + p.length + 1 + 0 + 1 + 9 = p.length + 16 := by omega
  rw [harith]

theorem scriptMatchAt_canonical (p rest : Str) (hq : ∀ c ∈ p, c ≠ '"') (hne : p ≠ []) :
    scriptMatchAt (scriptTag p ++ rest) = some (p.length + 24, p) := by
  have hseek : scriptSeek (srcLit ++ (p ++ ('"' :: '>' :: (endScriptLit ++ rest))))
      = some (p.length + 16, p) :=
    scriptSeek_hit 's' _ _ (srcTail_canonical p rest hq hne)
  have hshape : scriptTag p ++ rest
      = '<' :: 's' :: 'c' :: 'r' :: 'i' :: 'p' :: 't' :: ' '
        :: (srcLit ++ (p ++ ('"' :: '>' :: (endScriptLit ++ rest)))) := by
    simp [scriptTag, srcLit, endScriptLit]
  rw [hshape]
  unfold scriptMatchAt
  have hpref : List.isPrefixOf scriptLit
      ('<' :: 's' :: 'c' :: 'r' :: 'i' :: 'p' :: 't' :: ' '
        :: (srcLit ++ (p ++ ('"' :: '>' :: (endScriptLit ++ rest))))) = true := rfl
  rw [if_pos hpref]
  rw [show List.drop 7
      ('<' :: 's' :: 'c' :: 'r' :: 'i' :: 'p' :: 't' :: ' '
        :: (srcLit ++ (p ++ ('"' :: '>' :: (endScriptLit ++ rest)))))
      = ' ' :: (srcLit ++ (p ++ ('"' :: '>' :: (endScriptLit ++ rest)))) from rfl]
  dsimp only
  rw [if_neg (by decide : ¬ (' ' = '\n')), hseek]
  simp
  omega

/-! the replacers on found and missing targets -/

theorem linkRepl_found (files : List VFile) (cap : Str) (f : VFile) (matched : Str)
    (h : findFile files cap = some f) :
    linkRepl files cap matched = styleBlock f.content := by
  simp only [linkRepl, h]
  rfl

theorem linkRepl_missing (files : List VFile) (cap matched : Str)
    (h : findFile files cap = none) :
    linkRepl files cap matched = matched := by
  simp only [linkRepl, h]

theorem scriptRepl_found (files : List VFile) (cap : Str) (f : VFile) (matched : Str)
    (h : findFile files cap = some f) :
    scriptRepl files cap matched = scriptBlock f.content := by
  simp only [scriptRepl, h]
  rfl

theorem scriptRepl_missing (files : List VFile) (cap matched : Str)
    (h : findFile files cap = none) :
    scriptRepl files cap matched = matched := by
  simp only [scriptRepl, h]

/-! stepping a replace pass over a matched tag -/

theorem gReplace_tag (m : Str → Option (Nat × Str)) (r : Str → Str → Str)
    (tag rest cap : Str) (hne : tag ≠ [])
    (h : m (tag ++ rest) = some (tag.length, cap)) (hlen : 1 ≤ tag.length) :
    gReplace m r (tag ++ rest) = r cap tag ++ gReplace m r rest := by
  obtain ⟨a, t', ht⟩ : ∃ a t', tag = a :: t' := by
    cases tag with
    | nil => exact absurd rfl hne
    | cons a t' => exact ⟨a, t', rfl⟩
  have hcons : tag ++ rest = a :: (t' ++ rest) := by rw [ht]; rfl
  rw [hcons] at h ⊢
  rw [gReplace_cons_match m r a (t' ++ rest) tag.length cap h hlen]
  rw [← hcons, List.take_left' rfl, List.drop_left' rfl]

/-! concrete head/last/length facts for the canonical tags and blocks -/

theorem linkTag_head (p X : Str) : (linkTag p ++ X).head? = some '<' := rfl

theorem scriptTag_head (p X : Str) : (scriptTag p ++ X).head? = some '<' := rfl

theorem styleBlock_head (css X : Str) : (styleBlock css ++ X).head? = some '<' := rfl

theorem scriptBlock_head (js X : Str) : (scriptBlock js ++ X).head? = some '<' := rfl

theorem navScript_head (X : Str) : (navScript ++ X).head? = some '\n' := rfl

theorem scriptTag_last (p : Str) : (scriptTag p).getLast? = some '>' := by
  rw [scriptTag, List.getLast?_append]
  rfl

theorem linkTag_length (p : Str) : (linkTag p).length = p.length + 14 := by
  simp [linkTag]

theorem scriptTag_length (p : Str) : (scriptTag p).length = p.length + 24 := by
  simp [scriptTag]

theorem linkTag_assoc (p : Str) :
    linkTag p = "<link href=\"".toList ++ (p ++ "\">".toList) := by
  rw [linkTag, List.append_assoc]

theorem scriptTag_assoc (p : Str) :
    scriptTag p = "<script src=\"".toList ++ (p ++ "\"></script>".toList) := by
  rw [scriptTag, List.append_assoc]

theorem styleBlock_assoc (css : Str) :
    styleBlock css = "<style>\n".toList ++ (css ++ "\n</style>".toList) := by
  rw [styleBlock, List.append_assoc]

theorem scriptBlock_assoc (js : Str) :
    scriptBlock js = "<script>\n".toList ++ (js ++ "\n</script>".toList) := by
  rw [scriptBlock, List.append_assoc]

/-! no `<link` occurrence inside a canonical script tag -/

theorem scriptTag_no_linkLit (jp : Str) (hjplt : '<' ∉ jp) :
    ¬ linkLit <:+: scriptTag jp := by
  rw [scriptTag_assoc]
  apply not_infix_parts
  · decide
  · apply not_infix_parts
    · exact not_infix_of_headMem _ _ '<' rfl hjplt
    · decide
    · exact cross_of_head _ _ _ '"' rfl (by decide)
  · exact cross_of_tail _ _ _ [] "<script src=\"".toList (by simp) (by decide)

theorem linkPass_c1 (files : List VFile) (A B C css jp : Str)
    (hA : ¬ linkLit <:+: A) (hB : ¬ linkLit <:+: B) (hC : ¬ linkLit <:+: C)
    (hjplt : '<' ∉ jp)
    (hcf : findFile files "style.css".toList = some ⟨"style.css".toList, css⟩) :
    gReplace linkMatchAt (linkRepl files)
      (A ++ (linkTag "style.css".toList ++ (B ++ (scriptTag jp ++ C))))
    = A ++ (styleBlock css ++ (B ++ (scriptTag jp ++ C))) := by
  rw [gReplace_skip linkMatchAt (linkRepl files) linkLit linkMatch_starts A _
    (noStart_of _ _ _ hA (cross_of_head _ _ _ '<' (linkTag_head _ _) (by decide)))]
  rw [gReplace_tag linkMatchAt (linkRepl files) (linkTag "style.css".toList) _ _
    (by decide)
    (by rw [linkTag_length]
        exact linkMatchAt_canonical "style.css".toList _ (by decide) (by decide) (by decide))
    (by rw [linkTag_length]; omega)]
  rw [linkRepl_found files _ ⟨"style.css".toList, css⟩ _ hcf]
  rw [gReplace_skip linkMatchAt (linkRepl files) linkLit linkMatch_starts B _
    (noStart_of _ _ _ hB (cross_of_head _ _ _ '<' (scriptTag_head _ _) (by decide)))]
  rw [gReplace_skip linkMatchAt (linkRepl files) linkLit linkMatch_starts (scriptTag jp) C
    (noStart_of _ _ _ (scriptTag_no_linkLit jp hjplt)
      (cross_of_last _ _ _ '>' (scriptTag_last jp) (by decide)))]
  rw [gReplace_untouched linkMatchAt (linkRepl files) linkLit linkMatch_starts C hC]

theorem scriptPass_c1 (files : List VFile) (A B C css js jp : Str)
    (hA : ¬ scriptLit <:+: A) (hB : ¬ scriptLit <:+: B) (hC : ¬ scriptLit <:+: C)
    (hcssS : ¬ scriptLit <:+: css)
    (hjpq : ∀ c ∈ jp, c ≠ '"') (hjpne : jp ≠ [])
    (hjf : findFile files jp = some ⟨jp, js⟩) :
    gReplace scriptMatchAt (scriptRepl files)
      (A ++ (styleBlock css ++ (B ++ (scriptTag jp ++ C))))
    = A ++ (styleBlock css ++ (B ++ (scriptBlock js ++ C))) := by
  have hSB : ¬ scriptLit <:+: styleBlock css := by
    rw [styleBlock_assoc]
    apply not_infix_parts
    · decide
    · apply not_infix_parts
      · exact hcssS
      · decide
      · exact cross_of_head _ _ _ '\n' rfl (by decide)
    · exact cross_of_tail _ _ _ [] "<style>\n".toList (by simp) (by decide)
  rw [gReplace_skip scriptMatchAt (scriptRepl files) scriptLit scriptMatch_starts A _
    (noStart_of _ _ _ hA (cross_of_head _ _ _ '<' (styleBlock_head _ _) (by decide)))]
  rw [gReplace_skip scriptMatchAt (scriptRepl files) scriptLit scriptMatch_starts
    (styleBlock css) _
    (noStart_of _ _ _ hSB
      (cross_of_tail _ _ _ ("<style>\n".toList ++ css) "\n</style>".toList rfl (by decide)))]
  rw [gReplace_skip scriptMatchAt (scriptRepl files) scriptLit scriptMatch_starts B _
    (noStart_of _ _ _ hB (cross_of_head _ _ _ '<' (scriptTag_head _ _) (by decide)))]
  rw [gReplace_tag scriptMatchAt (scriptRepl files) (scriptTag jp) _ _
    (by rw [scriptTag]; simp)
    (by rw [scriptTag_length]
        exact scriptMatchAt_canonical jp _ hjpq hjpne)
    (by rw [scriptTag_length]; omega)]
  rw [scriptRepl_found files _ ⟨jp, js⟩ _ hjf]
  rw [gReplace_untouched scriptMatchAt (scriptRepl files) scriptLit scriptMatch_starts C hC]

/-! infix-freedom of the fully resolved document -/

theorem not_infix_resolved (lit A B C css js : Str)
    (hlitA : ¬ lit <:+: A) (hlitB : ¬ lit <:+: B) (hlitC : ¬ lit <:+: C)
    (hcss : ¬ lit <:+: css) (hjs : ¬ lit <:+: js)
    (hP1 : ¬ lit <:+: "<style>\n".toList) (hP2 : ¬ lit <:+: "\n</style>".toList)
    (hQ1 : ¬ lit <:+: "<script>\n".toList) (hQ2 : ¬ lit <:+: "\n</script>".toList)
    (hheadLT : ∀ k, k < lit.length → 0 < k → (lit.drop k).head? ≠ some '<')
    (hheadNL : ∀ k, k < lit.length → 0 < k → (lit.drop k).head? ≠ some '\n')
    (hT1 : ∀ k, k < lit.length → 0 < k →
      ¬ (lit.take k <:+ "<style>\n".toList) ∧ ¬ ("<style>\n".toList <:+ lit.take k))
    (hT2 : ∀ k, k < lit.length → 0 < k →
      ¬ (lit.take k <:+ "\n</style>".toList) ∧ ¬ ("\n</style>".toList <:+ lit.take k))
    (hT3 : ∀ k, k < lit.length → 0 < k →
      ¬ (lit.take k <:+ "<script>\n".toList) ∧ ¬ ("<script>\n".toList <:+ lit.take k))
    (hT4 : ∀ k, k < lit.length → 0 < k →
      ¬ (lit.take k <:+ "\n</script>".toList) ∧ ¬ ("\n</script>".toList <:+ lit.take k)) :
    ¬ lit <:+: (A ++ (styleBlock css ++ (B ++ (scriptBlock js ++ C)))) := by
  simp only [styleBlock_assoc, scriptBlock_assoc, List.append_assoc]
  have N1 : ¬ lit <:+: ("\n</script>".toList ++ C) :=
    not_infix_parts _ _ _ hQ2 hlitC (cross_of_tail _ _ _ [] "\n</script>".toList (by simp) hT4)
  have N2 : ¬ lit <:+: (js ++ ("\n</script>".toList ++ C)) :=
    not_infix_parts _ _ _ hjs N1 (cross_of_head _ _ _ '\n' rfl hheadNL)
  have N3 : ¬ lit <:+: ("<script>\n".toList ++ (js ++ ("\n</script>".toList ++ C))) :=
    not_infix_parts _ _ _ hQ1 N2 (cross_of_tail _ _ _ [] "<script>\n".toList (by simp) hT3)
  have N4 : ¬ lit <:+: (B ++ ("<script>\n".toList ++ (js ++ ("\n</script>".toList ++ C)))) :=
    not_infix_parts _ _ _ hlitB N3 (cross_of_head _ _ _ '<' rfl hheadLT)
  have N5 : ¬ lit <:+: ("\n</style>".toList ++
      (B ++ ("<script>\n".toList ++ (js ++ ("\n</script>".toList ++ C))))) :=
    not_infix_parts _ _ _ hP2 N4 (cross_of_tail _ _ _ [] "\n</style>".toList (by simp) hT2)
  have N6 : ¬ lit <:+: (css ++ ("\n</style>".toList ++
      (B ++ ("<script>\n".toList ++ (js ++ ("\n</script>".toList ++ C)))))) :=
    not_infix_parts _ _ _ hcss N5 (cross_of_head _ _ _ '\n' rfl hheadNL)
  have N7 : ¬ lit <:+: ("<style>\n".toList ++ (css ++ ("\n</style>".toList ++
      (B ++ ("<script>\n".toList ++ (js ++ ("\n</script>".toList ++ C))))))) :=
    not_infix_parts _ _ _ hP1 N6 (cross_of_tail _ _ _ [] "<style>\n".toList (by simp) hT1)
  exact not_infix_parts _ _ _ hlitA N7 (cross_of_head _ _ _ '<' rfl hheadLT)

/-! infix-freedom survives the navigation-script injection -/

theorem not_infix_navInject (lit S : Str)
    (hS : ¬ lit <:+: S)
    (hnav : ¬ lit <:+: navScript)
    (hEB : ¬ lit <:+: endBodyLit)
    (hT5 : ∀ k, k < lit.length → 0 < k →
      ¬ (lit.take k <:+ endBodyLit) ∧ ¬ (endBodyLit <:+ lit.take k))
    (hheadLT : ∀ k, k < lit.length → 0 < k → (lit.drop k).head? ≠ some '<')
    (hheadNL : ∀ k, k < lit.length → 0 < k → (lit.drop k).head? ≠ some '\n') :
    ¬ lit <:+: navInject S := by
  unfold navInject
  by_cases hocc : occursIn endBodyLit S = true
  · rw [if_pos hocc]
    obtain ⟨U, V, hSplit, hOut⟩ :=
      rfo_split endBodyLit (navScript ++ endBodyLit) (by decide) S hocc
    rw [hOut, List.append_assoc navScript endBodyLit V]
    have hU : ¬ lit <:+: U := fun h => hS (by rw [hSplit]; exact infix_appL _ _ _ h)
    have hV : ¬ lit <:+: V := fun h => hS (by
      rw [hSplit]
      exact infix_appR _ _ _ (infix_appR _ _ _ h))
    have M1 : ¬ lit <:+: (endBodyLit ++ V) :=
      not_infix_parts _ _ _ hEB hV (cross_of_tail _ _ _ [] endBodyLit (by simp) hT5)
    have M2 : ¬ lit <:+: (navScript ++ (endBodyLit ++ V)) :=
      not_infix_parts _ _ _ hnav M1 (cross_of_head _ _ _ '<' rfl hheadLT)
    exact not_infix_parts _ _ _ hU M2 (cross_of_head _ _ _ '\n' (navScript_head _) hheadNL)
  · rw [if_neg hocc]
    exact not_infix_parts _ _ _ hS hnav (cross_of_head _ _ _ '\n' rfl hheadNL)

/-! a clean block survives the navigation-script injection verbatim -/

theorem navInject_pres (S X M Y : Str) (hS : S = X ++ (M ++ Y))
    (hnsM : NoStart endBodyLit M Y)
    (hcrossX : Cross endBodyLit X (M ++ Y)) :
    M <:+: navInject S := by
  unfold navInject
  by_cases hocc : occursIn endBodyLit S = true
  · rw [if_pos hocc, hS]
    obtain ⟨U, V, hUV⟩ :=
      rfo_pres endBodyLit (navScript ++ endBodyLit) M Y hnsM X hcrossX
    rw [hUV]
    exact infix_appR _ _ _ (infix_appL _ _ _ (List.infix_refl M))
  · rw [if_neg hocc, hS]
    exact infix_appL _ _ _ (infix_appR _ _ _ (infix_appL _ _ _ (List.infix_refl M)))

/-- C1 (amended): for a file set whose `index.html` is
`A ++ <link href="style.css"> ++ B ++ <script src="jp"></script> ++ C`
with matching `style.css` and `jp` files, where the context segments and
the two file contents contain no `<link`/`<script` occurrence of their
own and the inlined contents contain no `</body>`, the resolver output
contains the css wrapped in a `<style>` block and the js wrapped in an
inline `<script>` block, the stylesheet regex finds no match at all in
the output (in particular no `<link>` tag referencing `style.css`
remains), and the original `<script src=...>` tag is gone. -/
theorem C1_inlining_resolved (files : List VFile) (A B C css js jp : Str)
    (hfiles : files ≠ [])
    (hentry : findFile files "index.html".toList =
      some ⟨"index.html".toList,
        A ++ (linkTag "style.css".toList ++ (B ++ (scriptTag jp ++ C)))⟩)
    (hcf : findFile files "style.css".toList = some ⟨"style.css".toList, css⟩)
    (hjf : findFile files jp = some ⟨jp, js⟩)
    (hjpq : ∀ c ∈ jp, c ≠ '"') (hjplt : '<' ∉ jp) (hjpne : jp ≠ [])
    (hAL : ¬ linkLit <:+: A) (hAS : ¬ scriptLit <:+: A)
    (hBL : ¬ linkLit <:+: B) (hBS : ¬ scriptLit <:+: B)
    (hCL : ¬ linkLit <:+: C) (hCS : ¬ scriptLit <:+: C)
    (hcssL : ¬ linkLit <:+: css) (hcssS : ¬ scriptLit <:+: css)
    (hcssB : ¬ endBodyLit <:+: css)
    (hjsL : ¬ linkLit <:+: js) (hjsS : ¬ scriptLit <:+: js)
    (hjsB : ¬ endBodyLit <:+: js) :
    styleBlock css <:+: srcDoc files "index.html".toList ∧
    scriptBlock js <:+: srcDoc files "index.html".toList ∧
    capsOf linkMatchAt (srcDoc files "index.html".toList) = [] ∧
    ¬ scriptTag jp <:+: srcDoc files "index.html".toList := by
  have hdoc : srcDoc files "index.html".toList =
      navInject (A ++ (styleBlock css ++ (B ++ (scriptBlock js ++ C)))) := by
    unfold srcDoc
    rw [if_neg (by rw [List.isEmpty_iff]; exact hfiles), hentry]
    dsimp only
    rw [linkPass_c1 files A B C css jp hAL hBL hCL hjplt hcf]
    rw [scriptPass_c1 files A B C css js jp hAS hBS hCS hcssS hjpq hjpne hjf]
  have hnsSB : NoStart endBodyLit (styleBlock css) (B ++ (scriptBlock js ++ C)) := by
    apply noStart_of
    · rw [styleBlock_assoc]
      apply not_infix_parts
      · decide
      · apply not_infix_parts
        · exact hcssB
        · decide
        · exact cross_of_head _ _ _ '\n' rfl (by decide)
      · exact cross_of_tail _ _ _ [] "<style>\n".toList (by simp) (by decide)
    · exact cross_of_tail _ _ _ ("<style>\n".toList ++ css) "\n</style>".toList rfl (by decide)
  have hnsJB : NoStart endBodyLit (scriptBlock js) C := by
    apply noStart_of
    · rw [scriptBlock_assoc]
      apply not_infix_parts
      · decide
      · apply not_infix_parts
        · exact hjsB
        · decide
        · exact cross_of_head _ _ _ '\n' rfl (by decide)
      · exact cross_of_tail _ _ _ [] "<script>\n".toList (by simp) (by decide)
    · exact cross_of_tail _ _ _ ("<script>\n".toList ++ js) "\n</script>".toList rfl (by decide)
  have ha : styleBlock css <:+: navInject (A ++ (styleBlock css ++ (B ++ (scriptBlock js ++ C)))) :=
    navInject_pres _ A (styleBlock css) _ rfl hnsSB
      (cross_of_head _ _ _ '<' (styleBlock_head _ _) (by decide))
  have hb : scriptBlock js <:+: navInject (A ++ (styleBlock css ++ (B ++ (scriptBlock js ++ C)))) :=
    navInject_pres _ (A ++ (styleBlock css ++ B)) (scriptBlock js) C
      (by simp [List.append_assoc]) hnsJB
      (cross_of_head _ _ _ '<' (scriptBlock_head _ _) (by decide))
  have hLout : ¬ linkLit <:+: navInject (A ++ (styleBlock css ++ (B ++ (scriptBlock js ++ C)))) :=
    not_infix_navInject linkLit _
      (not_infix_resolved linkLit A B C css js hAL hBL hCL hcssL hjsL
        (by decide) (by decide) (by decide) (by decide) (by decide) (by decide)
        (by decide) (by decide) (by decide) (by decide))
      (not_infix_of_occursIn _ _ rfl) (by decide) (by decide) (by decide) (by decide)
  have hc : capsOf linkMatchAt (navInject (A ++ (styleBlock css ++ (B ++ (scriptBlock js ++ C))))) = [] :=
    capsOf_none _ _ linkMatch_starts _ hLout
  have hSSA : ¬ scriptSpaceLit <:+: A := not_infix_mono scriptLit scriptSpaceLit A (by decide) hAS
  have hSSB : ¬ scriptSpaceLit <:+: B := not_infix_mono scriptLit scriptSpaceLit B (by decide) hBS
  have hSSC : ¬ scriptSpaceLit <:+: C := not_infix_mono scriptLit scriptSpaceLit C (by decide) hCS
  have hSScss : ¬ scriptSpaceLit <:+: css :=
    not_infix_mono scriptLit scriptSpaceLit css (by decide) hcssS
  have hSSjs : ¬ scriptSpaceLit <:+: js :=
    not_infix_mono scriptLit scriptSpaceLit js (by decide) hjsS
  have hSout : ¬ scriptSpaceLit <:+:
      navInject (A ++ (styleBlock css ++ (B ++ (scriptBlock js ++ C)))) :=
    not_infix_navInject scriptSpaceLit _
      (not_infix_resolved scriptSpaceLit A B C css js hSSA hSSB hSSC hSScss hSSjs
        (by decide) (by decide) (by decide) (by decide) (by decide) (by decide)
        (by decide) (by decide) (by decide) (by decide))
      (not_infix_of_occursIn _ _ rfl) (by decide) (by decide) (by decide) (by decide)
  have htagpref : scriptSpaceLit <+: scriptTag jp := by
    refine ⟨"src=\"".toList ++ (jp ++ "\"></script>".toList), ?_⟩
    rw [scriptTag_assoc, ← List.append_assoc]
    rfl
  have hd : ¬ scriptTag jp <:+:
      navInject (A ++ (styleBlock css ++ (B ++ (scriptBlock js ++ C)))) :=
    not_infix_mono scriptSpaceLit (scriptTag jp) _ htagpref.isInfix hSout
  rw [hdoc]
  exact ⟨ha, hb, hc, hd⟩

/-! C1: counterexample to the unconditional claim -/

/-- C1 counterexample: the claim as stated fails.  For the file set
`[index.html ↦ <link href="style.css">, style.css ↦ a</body>b]` the
stylesheet is inlined, but the injector then inserts the navigation
script before the `</body>` that sits inside the inlined css, so the
output does not contain the css content wrapped in a `<style>` block:
the block is split in two around the navigation script. -/
theorem C1_counterexample :
    ¬ (styleBlock "a</body>b".toList <:+:
        srcDoc [⟨"index.html".toList, linkTag "style.css".toList⟩,
                ⟨"style.css".toList, "a</body>b".toList⟩] "index.html".toList) ∧
    ("<style>\na".toList ++ (navScript ++ "</body>b\n</style>".toList)) <:+:
        srcDoc [⟨"index.html".toList, linkTag "style.css".toList⟩,
                ⟨"style.css".toList, "a</body>b".toList⟩] "index.html".toList :=
  ⟨not_infix_of_occursIn _ _ rfl, (occursIn_iff _ _).1 rfl⟩

/-! C2: the missing-entry diagnostic and the missing-reference tolerance -/

theorem pnf_in_pre : "Page Not Found".toList <:+: notFoundPre :=
  (occursIn_iff _ _).1 rfl

theorem srcDoc_missing_entry (files : List VFile) (p : Str) (hne : files ≠ [])
    (hmiss : findFile files p = none) :
    srcDoc files p = notFoundPage p ∧
    "Page Not Found".toList <:+: srcDoc files p ∧ p <:+: srcDoc files p := by
  have hdoc : srcDoc files p = notFoundPage p := by
    unfold srcDoc
    rw [if_neg (by rw [List.isEmpty_iff]; exact hne), hmiss]
  refine ⟨hdoc, ?_, ?_⟩
  · rw [hdoc, notFoundPage]
    exact infix_appL _ _ _ (infix_appL _ _ _ pnf_in_pre)
  · rw [hdoc, notFoundPage]
    exact infix_appL _ _ _ (infix_appR _ _ _ (List.infix_refl p))

theorem linkTag_last (p : Str) : (linkTag p).getLast? = some '>' := by
  rw [linkTag, List.getLast?_append]
  rfl

theorem linkTag_no_scriptLit (mp : Str) (hmpLT : '<' ∉ mp) :
    ¬ scriptLit <:+: linkTag mp := by
  rw [linkTag_assoc]
  apply not_infix_parts
  · decide
  · apply not_infix_parts
    · exact not_infix_of_headMem _ _ '<' rfl hmpLT
    · decide
    · exact cross_of_head _ _ _ '"' rfl (by decide)
  · exact cross_of_tail _ _ _ [] "<link href=\"".toList (by simp) (by decide)

theorem linkPass_c2 (files : List VFile) (A B C mp mjp : Str)
    (hA : ¬ linkLit <:+: A) (hB : ¬ linkLit <:+: B) (hC : ¬ linkLit <:+: C)
    (hmpq : ∀ c ∈ mp, c ≠ '"') (hmpcss : cssExt <:+ mp) (hmplen : 5 ≤ mp.length)
    (hmjpLT : '<' ∉ mjp)
    (hmf : findFile files mp = none) :
    gReplace linkMatchAt (linkRepl files)
      (A ++ (linkTag mp ++ (B ++ (scriptTag mjp ++ C))))
    = A ++ (linkTag mp ++ (B ++ (scriptTag mjp ++ C))) := by
  rw [gReplace_skip linkMatchAt (linkRepl files) linkLit linkMatch_starts A _
    (noStart_of _ _ _ hA (cross_of_head _ _ _ '<' (linkTag_head _ _) (by decide)))]
  rw [gReplace_tag linkMatchAt (linkRepl files) (linkTag mp) _ _
    (by rw [linkTag]; simp)
    (by rw [linkTag_length]
        exact linkMatchAt_canonical mp _ hmpq hmpcss hmplen)
    (by rw [linkTag_length]; omega)]
  rw [linkRepl_missing files _ _ hmf]
  rw [gReplace_skip linkMatchAt (linkRepl files) linkLit linkMatch_starts B _
    (noStart_of _ _ _ hB (cross_of_head _ _ _ '<' (scriptTag_head _ _) (by decide)))]
  rw [gReplace_skip linkMatchAt (linkRepl files) linkLit linkMatch_starts (scriptTag mjp) C
    (noStart_of _ _ _ (scriptTag_no_linkLit mjp hmjpLT)
      (cross_of_last _ _ _ '>' (scriptTag_last mjp) (by decide)))]
  rw [gReplace_untouched linkMatchAt (linkRepl files) linkLit linkMatch_starts C hC]

theorem scriptPass_c2 (files : List VFile) (A B C mp mjp : Str)
    (hA : ¬ scriptLit <:+: A) (hB : ¬ scriptLit <:+: B) (hC : ¬ scriptLit <:+: C)
    (hmpLT : '<' ∉ mp)
    (hmjpq : ∀ c ∈ mjp, c ≠ '"') (hmjpne : mjp ≠ [])
    (hjmf : findFile files mjp = none) :
    gReplace scriptMatchAt (scriptRepl files)
      (A ++ (linkTag mp ++ (B ++ (scriptTag mjp ++ C))))
    = A ++ (linkTag mp ++ (B ++ (scriptTag mjp ++ C))) := by
  rw [gReplace_skip scriptMatchAt (scriptRepl files) scriptLit scriptMatch_starts A _
    (noStart_of _ _ _ hA (cross_of_head _ _ _ '<' (linkTag_head _ _) (by decide)))]
  rw [gReplace_skip scriptMatchAt (scriptRepl files) scriptLit scriptMatch_starts
    (linkTag mp) _
    (noStart_of _ _ _ (linkTag_no_scriptLit mp hmpLT)
      (cross_of_tail _ _ _ ("<link href=\"".toList ++ mp) "\">".toList rfl (by decide)))]
  rw [gReplace_skip scriptMatchAt (scriptRepl files) scriptLit scriptMatch_starts B _
    (noStart_of _ _ _ hB (cross_of_head _ _ _ '<' (scriptTag_head _ _) (by decide)))]
  rw [gReplace_tag scriptMatchAt (scriptRepl files) (scriptTag mjp) _ _
    (by rw [scriptTag]; simp)
    (by rw [scriptTag_length]
        exact scriptMatchAt_canonical mjp _ hmjpq hmjpne)
    (by rw [scriptTag_length]; omega)]
  rw [scriptRepl_missing files _ _ hjmf]
  rw [gReplace_untouched scriptMatchAt (scriptRepl files) scriptLit scriptMatch_starts C hC]

/-- C2 (amended): the resolver is a total function and (i) for every
NON-EMPTY file set with no file at the entry path it returns the
diagnostic page, which contains the literal `Page Not Found` and the
missing path itself; (ii) a canonical stylesheet link and script tag
whose targets are absent from the set are left verbatim in the output
(for an entry of the canonical hygienic shape).  The original claim
fails only on the empty file set, where the resolver returns the empty
document instead of the diagnostic. -/
theorem C2_missing_tolerance :
    (∀ files : List VFile, ∀ p : Str, files ≠ [] → findFile files p = none →
      srcDoc files p = notFoundPage p ∧
      "Page Not Found".toList <:+: srcDoc files p ∧ p <:+: srcDoc files p) ∧
    (∀ files : List VFile, ∀ A B C mp mjp : Str, files ≠ [] →
      findFile files "index.html".toList =
        some ⟨"index.html".toList, A ++ (linkTag mp ++ (B ++ (scriptTag mjp ++ C)))⟩ →
      findFile files mp = none → findFile files mjp = none →
      (∀ c ∈ mp, c ≠ '"') → cssExt <:+ mp → 5 ≤ mp.length → '<' ∉ mp →
      (∀ c ∈ mjp, c ≠ '"') → mjp ≠ [] → '<' ∉ mjp →
      (¬ linkLit <:+: A) → (¬ scriptLit <:+: A) →
      (¬ linkLit <:+: B) → (¬ scriptLit <:+: B) →
      (¬ linkLit <:+: C) → (¬ scriptLit <:+: C) →
      linkTag mp <:+: srcDoc files "index.html".toList ∧
      scriptTag mjp <:+: srcDoc files "index.html".toList) := by
  constructor
  · exact srcDoc_missing_entry
  · intro files A B C mp mjp hfiles hentry hmf hjmf hmpq hmpcss hmplen hmpLT
      hmjpq hmjpne hmjpLT hAL hAS hBL hBS hCL hCS
    have hdoc : srcDoc files "index.html".toList =
        navInject (A ++ (linkTag mp ++ (B ++ (scriptTag mjp ++ C)))) := by
      unfold srcDoc
      rw [if_neg (by rw [List.isEmpty_iff]; exact hfiles), hentry]
      dsimp only
      rw [linkPass_c2 files A B C mp mjp hAL hBL hCL hmpq hmpcss hmplen hmjpLT hmf]
      rw [scriptPass_c2 files A B C mp mjp hAS hBS hCS hmpLT hmjpq hmjpne hjmf]
    have hnsT1 : NoStart endBodyLit (linkTag mp) (B ++ (scriptTag mjp ++ C)) := by
      apply noStart_of
      · rw [linkTag_assoc]
        apply not_infix_parts
        · decide
        · apply not_infix_parts
          · exact not_infix_of_headMem _ _ '<' rfl hmpLT
          · decide
          · exact cross_of_head _ _ _ '"' rfl (by decide)
        · exact cross_of_tail _ _ _ [] "<link href=\"".toList (by simp) (by decide)
      · exact cross_of_tail _ _ _ ("<link href=\"".toList ++ mp) "\">".toList rfl (by decide)
    have hnsT2 : NoStart endBodyLit (scriptTag mjp) C := by
      apply noStart_of
      · rw [scriptTag_assoc]
        apply not_infix_parts
        · decide
        · apply not_infix_parts
          · exact not_infix_of_headMem _ _ '<' rfl hmjpLT
          · decide
          · exact cross_of_head _ _ _ '"' rfl (by decide)
        · exact cross_of_tail _ _ _ [] "<script src=\"".toList (by simp) (by decide)
      · exact cross_of_tail _ _ _ ("<script src=\"".toList ++ mjp) "\"></script>".toList rfl
          (by decide)
    constructor
    · rw [hdoc]
      exact navInject_pres _ A (linkTag mp) _ rfl hnsT1
        (cross_of_head _ _ _ '<' (linkTag_head _ _) (by decide))
    · rw [hdoc]
      exact navInject_pres _ (A ++ (linkTag mp ++ B)) (scriptTag mjp) C
        (by simp [List.append_assoc]) hnsT2
        (cross_of_head _ _ _ '<' (scriptTag_head _ _) (by decide))

/-! C2 and C10 counterexamples, C10 master -/

/-- C2 counterexample: on the empty file set no file exists at the entry
path, yet the resolver returns the empty document, which neither
describes the missing path nor contains any diagnostic text. -/
theorem C2_counterexample :
    srcDoc [] "index.html".toList = [] ∧
    ¬ ("Page Not Found".toList <:+: srcDoc [] "index.html".toList) ∧
    ¬ ("index.html".toList <:+: srcDoc [] "index.html".toList) := by
  refine ⟨rfl, ?_, ?_⟩ <;> intro h <;> exact absurd (List.eq_nil_of_infix_nil h) (by decide)

/-- C10 (amended): a `files` prop change always resets the active path to
`index.html` and the next rendered document is resolved from
`index.html`; if the new set is NON-EMPTY and lacks `index.html`, that
document is the diagnostic page (it contains `Page Not Found` and the
path `index.html`).  The original claim fails on the empty file set,
where the rendered document is empty rather than the diagnostic page. -/
theorem C10_entry_reset :
    (∀ st : PreviewState, ∀ fs : List VFile,
      (previewStep st (PreviewEvent.filesChanged fs)).activePath = "index.html".toList ∧
      previewDoc (previewStep st (PreviewEvent.filesChanged fs)) =
        srcDoc fs "index.html".toList) ∧
    (∀ st : PreviewState, ∀ fs : List VFile, fs ≠ [] →
      findFile fs "index.html".toList = none →
      "Page Not Found".toList <:+: previewDoc (previewStep st (PreviewEvent.filesChanged fs)) ∧
      "index.html".toList <:+: previewDoc (previewStep st (PreviewEvent.filesChanged fs))) := by
  constructor
  · intro st fs
    exact ⟨rfl, rfl⟩
  · intro st fs hne hmiss
    have h := srcDoc_missing_entry fs "index.html".toList hne hmiss
    exact ⟨h.2.1, h.2.2⟩

/-- C10 counterexample: navigating to `index.html` then changing the
files prop to the empty list renders the empty document, not the
diagnostic page, although `index.html` is absent from the new set. -/
theorem C10_counterexample :
    previewDoc (previewStep ⟨[⟨"index.html".toList, "<p>x</p>".toList⟩], "index.html".toList⟩
      (PreviewEvent.filesChanged [])) = [] ∧
    findFile ([] : List VFile) "index.html".toList = none ∧
    ¬ ("Page Not Found".toList <:+:
      previewDoc (previewStep ⟨[⟨"index.html".toList, "<p>x</p>".toList⟩],
        "index.html".toList⟩ (PreviewEvent.filesChanged []))) := by
  refine ⟨rfl, rfl, ?_⟩
  intro h
  exact absurd (List.eq_nil_of_infix_nil h) (by decide)

/-! witnesses -/

/-- C1 witness: the amended theorem applied to a concrete three-file set. -/
theorem C1_witness :
    styleBlock "h1".toList <:+:
      srcDoc [⟨"index.html".toList,
               "<html><body>".toList ++ (linkTag "style.css".toList ++
                 ("\n".toList ++ (scriptTag "app.js".toList ++ "</body></html>".toList)))⟩,
              ⟨"style.css".toList, "h1".toList⟩,
              ⟨"app.js".toList, "alert(1)".toList⟩] "index.html".toList ∧
    scriptBlock "alert(1)".toList <:+:
      srcDoc [⟨"index.html".toList,
               "<html><body>".toList ++ (linkTag "style.css".toList ++
                 ("\n".toList ++ (scriptTag "app.js".toList ++ "</body></html>".toList)))⟩,
              ⟨"style.css".toList, "h1".toList⟩,
              ⟨"app.js".toList, "alert(1)".toList⟩] "index.html".toList ∧
    capsOf linkMatchAt
      (srcDoc [⟨"index.html".toList,
               "<html><body>".toList ++ (linkTag "style.css".toList ++
                 ("\n".toList ++ (scriptTag "app.js".toList ++ "</body></html>".toList)))⟩,
              ⟨"style.css".toList, "h1".toList⟩,
              ⟨"app.js".toList, "alert(1)".toList⟩] "index.html".toList) = [] ∧
    ¬ scriptTag "app.js".toList <:+:
      srcDoc [⟨"index.html".toList,
               "<html><body>".toList ++ (linkTag "style.css".toList ++
                 ("\n".toList ++ (scriptTag "app.js".toList ++ "</body></html>".toList)))⟩,
              ⟨"style.css".toList, "h1".toList⟩,
              ⟨"app.js".toList, "alert(1)".toList⟩] "index.html".toList :=
  C1_inlining_resolved
    [⟨"index.html".toList,
      "<html><body>".toList ++ (linkTag "style.css".toList ++
        ("\n".toList ++ (scriptTag "app.js".toList ++ "</body></html>".toList)))⟩,
     ⟨"style.css".toList, "h1".toList⟩,
     ⟨"app.js".toList, "alert(1)".toList⟩]
    "<html><body>".toList "\n".toList "</body></html>".toList
    "h1".toList "alert(1)".toList "app.js".toList
    (List.cons_ne_nil _ _) rfl rfl rfl
    (by decide) (by decide) (by decide)
    (by decide) (by decide) (by decide) (by decide) (by decide) (by decide)
    (by decide) (by decide) (by decide) (by decide) (by decide) (by decide)

/-- C2 witness: the amended theorem applied to a concrete one-file set
(missing entry) and to a concrete entry referencing two missing files. -/
theorem C2_witness :
    (srcDoc [⟨"a.html".toList, []⟩] "index.html".toList =
       notFoundPage "index.html".toList ∧
     "Page Not Found".toList <:+: srcDoc [⟨"a.html".toList, []⟩] "index.html".toList ∧
     "index.html".toList <:+: srcDoc [⟨"a.html".toList, []⟩] "index.html".toList) ∧
    (linkTag "missing.css".toList <:+:
      srcDoc [⟨"index.html".toList,
               "<html><body>".toList ++ (linkTag "missing.css".toList ++
                 ("\n".toList ++ (scriptTag "missing.js".toList ++
                   "</body></html>".toList)))⟩] "index.html".toList ∧
     scriptTag "missing.js".toList <:+:
      srcDoc [⟨"index.html".toList,
               "<html><body>".toList ++ (linkTag "missing.css".toList ++
                 ("\n".toList ++ (scriptTag "missing.js".toList ++
                   "</body></html>".toList)))⟩] "index.html".toList) :=
  ⟨C2_missing_tolerance.1 [⟨"a.html".toList, []⟩] "index.html".toList (List.cons_ne_nil _ _) rfl,
   C2_missing_tolerance.2
     [⟨"index.html".toList,
       "<html><body>".toList ++ (linkTag "missing.css".toList ++
         ("\n".toList ++ (scriptTag "missing.js".toList ++ "</body></html>".toList)))⟩]
     "<html><body>".toList "\n".toList "</body></html>".toList
     "missing.css".toList "missing.js".toList
     (List.cons_ne_nil _ _) rfl rfl rfl
     (by decide) (by decide) (by decide) (by decide)
     (by decide) (by decide) (by decide)
     (by decide) (by decide) (by decide) (by decide) (by decide) (by decide)⟩

/-- C10 witness: the amended theorem applied to a concrete state and a
concrete one-file set without `index.html`. -/
theorem C10_witness :
    ((previewStep ⟨[⟨"x.html".toList, []⟩], "p.html".toList⟩
        (PreviewEvent.filesChanged [⟨"main.css".toList, []⟩])).activePath =
          "index.html".toList ∧
      previewDoc (previewStep ⟨[⟨"x.html".toList, []⟩], "p.html".toList⟩
        (PreviewEvent.filesChanged [⟨"main.css".toList, []⟩])) =
          srcDoc [⟨"main.css".toList, []⟩] "index.html".toList) ∧
    ("Page Not Found".toList <:+:
       previewDoc (previewStep ⟨[⟨"x.html".toList, []⟩], "p.html".toList⟩
         (PreviewEvent.filesChanged [⟨"main.css".toList, []⟩])) ∧
     "index.html".toList <:+:
       previewDoc (previewStep ⟨[⟨"x.html".toList, []⟩], "p.html".toList⟩
         (PreviewEvent.filesChanged [⟨"main.css".toList, []⟩]))) :=
  ⟨C10_entry_reset.1 ⟨[⟨"x.html".toList, []⟩], "p.html".toList⟩ [⟨"main.css".toList, []⟩],
   C10_entry_reset.2 ⟨[⟨"x.html".toList, []⟩], "p.html".toList⟩ [⟨"main.css".toList, []⟩]
     (List.cons_ne_nil _ _) rfl⟩

end Spec2Proof
